import Mathlib

/-!
# QuickNote: the undo/redo history of `Editor` (src/editor.cpp)

A shallow embedding of the history engine of `Editor`: the members
`m_history`, `m_currentHistoryIndex`, `m_deactivateHistoryEvent`,
`m_maxHistorySize`, `m_state`, the text widget, and the history file, with
the member functions `saveHistory`, `saveHistoryIndex`, `executeUndo`,
`executeRedo`, `onTextChanged`, `loadHistory` with `decompressData`, and the
confirmed `clear_history` handler.

Modelling conventions.
* C++ `int` members are `Int`.  The only arithmetic on them is `+ 1` / `- 1`
  on an index that is compared with the array size, so in every state whose
  index lies below the array size no `int` overflow occurs as long as the
  log has fewer than `2^31` entries (the size of a `QJsonArray`).
* A Qt call whose documented precondition is violated (`QJsonArray::operator[]`
  with an index outside `0 <= i < size()`) is a `Fault`, as is a loop that
  never terminates.  A member function that can run into either returns
  `Except Fault Editor`.
* `QFile::open` may fail; its outcome is an explicit argument `fileOpens` of
  every function that opens the history file.
* The text widget is the pair of the plain text and the cursor position it was
  last given: `toPlainText()` and `textCursor().position()` return them.
* zlib and Qt's JSON text format are outside the repository: the history file
  is kept as the list of documents written to it, and `loadHistory` takes the
  zlib session and `QJsonDocument::fromJson` as arguments.
-/

namespace QuickNote

/-! ## JSON values (QJsonValue, QJsonObject, QJsonArray) -/

/-- The JSON values Qt stores in a `QJsonArray` or `QJsonObject`.  Numbers are
rationals (every JSON number literal is one); `undefined` is what Qt returns
for a missing member. -/
inductive QJsonValue where
  | null
  | bool (b : Bool)
  | double (q : ℚ)
  | string (s : String)
  | array (items : List QJsonValue)
  | object (members : List (String × QJsonValue))
  | undefined

abbrev QJsonArray := List QJsonValue

abbrev QJsonObject := List (String × QJsonValue)

/-- The least value of a 32-bit C++ `int`. -/
def INT_MIN : Int := -2147483648

/-- The greatest value of a 32-bit C++ `int`. -/
def INT_MAX : Int := 2147483647

/-- The value is representable as a C++ `int`. -/
def isInt (n : Int) : Prop := INT_MIN ≤ n ∧ n ≤ INT_MAX

instance (n : Int) : Decidable (isInt n) := by unfold isInt; infer_instance

/-- Qt's `QJsonValue::toObject()`: the object, or an empty object for any other type. -/
def QJsonValue.toObject : QJsonValue → QJsonObject
  | .object members => members
  | _ => []

/-- Qt's `QJsonValue::toArray()`: the array, or an empty array for any other type. -/
def QJsonValue.toArray : QJsonValue → List QJsonValue
  | .array items => items
  | _ => []

/-- Qt's `QJsonValue::toString()`: the string, or the null string for any other type. -/
def QJsonValue.toString : QJsonValue → String
  | .string s => s
  | _ => ""

/-- Qt's `QJsonValue::toInt()` with default 0: the number when it is integral and
fits an `int`, otherwise 0. -/
def QJsonValue.toInt : QJsonValue → Int
  | .double q => if q.den = 1 ∧ INT_MIN ≤ q.num ∧ q.num ≤ INT_MAX then q.num else 0
  | _ => 0

/-- The constructor `QJsonValue(int)`. -/
def QJsonValue.ofInt (n : Int) : QJsonValue := .double (n : ℚ)

/-- Reading `obj[key]`: the member, or `undefined` when there is none (a null
inserted by the non-const overload reads the same through `toString`,
`toInt` and `toObject`). -/
def QJsonObject.value (o : QJsonObject) (key : String) : QJsonValue :=
  match o.lookup key with
  | some v => v
  | none => .undefined

/-- Writing `obj[key] = v`: replaces the member with that key or adds one. -/
def QJsonObject.insert : QJsonObject → String → QJsonValue → QJsonObject
  | [], key, v => [(key, v)]
  | (k, w) :: rest, key, v =>
    if k = key then (key, v) :: rest else (k, w) :: QJsonObject.insert rest key v

/-- The reference `obj[key]` taken on a non-const object: when there is no
member with that key, one with the value null is created. -/
def QJsonObject.touch (o : QJsonObject) (key : String) : QJsonObject :=
  match o.lookup key with
  | some _ => o
  | none => QJsonObject.insert o key .null

/-- What can go wrong outside the documented behaviour of the Qt calls. -/
inductive Fault where
  | indexOutOfRange
  | nonTermination
  deriving DecidableEq

/-- Qt's `QJsonArray::operator[](i)` on a non-const array, as used for
`m_history[m_currentHistoryIndex]`: requires `0 <= i < size()`. -/
def QJsonArray.ref (a : QJsonArray) (i : Int) : Except Fault QJsonValue :=
  if 0 ≤ i ∧ i < (a.length : Int) then
    match a[i.toNat]? with
    | some v => .ok v
    | none => .error .indexOutOfRange
  else .error .indexOutOfRange

/-- Qt's `QJsonArray::removeAt(i)`: does nothing when `i` is out of range. -/
def QJsonArray.removeAt (a : QJsonArray) (i : Int) : QJsonArray :=
  if 0 ≤ i ∧ i < (a.length : Int) then a.eraseIdx i.toNat else a

/-- Qt's `QJsonArray::removeLast()`, which is `removeAt(size() - 1)`. -/
def QJsonArray.removeLast (a : QJsonArray) : QJsonArray :=
  QJsonArray.removeAt a ((a.length : Int) - 1)

/-- The loop `while (m_history.size() > m_currentHistoryIndex + 1) m_history.removeLast();`
run for at most `fuel` iterations; `none` when the fuel runs out. -/
def removeAfterIndexFuel : Nat → QJsonArray → Int → Option QJsonArray
  | 0, _, _ => none
  | fuel + 1, a, idx =>
    if (a.length : Int) > idx + 1 then removeAfterIndexFuel fuel (QJsonArray.removeLast a) idx
    else some a

/-- The same loop as a total function.  After `size()` iterations the array is
empty; if the loop condition still holds then, `removeLast` changes nothing
any more and the loop never ends. -/
def removeAfterIndexLoop : Nat → QJsonArray → Int → Except Fault QJsonArray
  | 0, a, idx =>
    if (a.length : Int) > idx + 1 then .error .nonTermination else .ok a
  | n + 1, a, idx =>
    if (a.length : Int) > idx + 1 then removeAfterIndexLoop n (QJsonArray.removeLast a) idx
    else .ok a

/-- The truncation loop of `saveHistory` on the array `a` with index `idx`. -/
def removeAfterIndex (a : QJsonArray) (idx : Int) : Except Fault QJsonArray :=
  removeAfterIndexLoop a.length a idx

/-! ## The editor -/

/-- The part of `QTextEdit` the history uses: the plain text and the cursor
position last given to it. -/
structure QTextEdit where
  text : String
  cursor : Int

/-- The members of `Editor` the history engine reads or writes, and the
history file.  `fileWrites` lists the documents written to the history file,
newest first: each is the `saveData` object handed to `QJsonDocument`, whose
`toJson()` bytes go through `compressData` into `QFile::write`. -/
structure Editor where
  m_textEdit : QTextEdit
  m_history : QJsonArray
  m_currentHistoryIndex : Int
  m_deactivateHistoryEvent : Bool
  m_maxHistorySize : Int
  m_state : QJsonObject
  fileWrites : List QJsonValue

/-- The object `currentState` built by `saveHistory`: members `text` and `cursor`. -/
def currentState (currentText : String) (cursorPos : Int) : QJsonObject :=
  QJsonObject.insert (QJsonObject.insert [] "text" (.string currentText)) "cursor"
    (QJsonValue.ofInt cursorPos)

/-- The object `saveData` written by `saveHistory` and `saveHistoryIndex`:
members `history` and `state`. -/
def saveData (e : Editor) : QJsonObject :=
  QJsonObject.insert (QJsonObject.insert [] "history" (.array e.m_history)) "state"
    (.object e.m_state)

/-- The block that opens the history file with `QIODevice::WriteOnly` and, when
that succeeds, writes the compressed `saveData` document. -/
def writeHistoryFile (fileOpens : Bool) (e : Editor) : Editor :=
  if fileOpens then { e with fileWrites := QJsonValue.object (saveData e) :: e.fileWrites }
  else e

/-- The test `shouldSave` of `saveHistory`. -/
def shouldSave (e : Editor) (currentText : String) (cursorPos : Int) : Except Fault Bool :=
  if e.m_history.isEmpty then .ok true
  else if e.m_currentHistoryIndex ≥ 0 then
    match QJsonArray.ref e.m_history e.m_currentHistoryIndex with
    | .error f => .error f
    | .ok v =>
      let lastState := v.toObject
      .ok ((QJsonObject.value lastState "text").toString != currentText
        || (QJsonObject.value lastState "cursor").toInt != cursorPos)
  else .ok false

/-- The member function `Editor::saveHistory()`. -/
def saveHistory (fileOpens : Bool) (e : Editor) : Except Fault Editor :=
  if e.m_deactivateHistoryEvent then .ok e
  else
    let currentText := e.m_textEdit.text
    let cursorPos := e.m_textEdit.cursor
    match shouldSave e currentText cursorPos with
    | .error f => .error f
    | .ok false => .ok e
    | .ok true =>
      match removeAfterIndex e.m_history e.m_currentHistoryIndex with
      | .error f => .error f
      | .ok h1 =>
        let i1 := e.m_currentHistoryIndex + 1
        let h2 := if (h1.length : Int) ≥ e.m_maxHistorySize then QJsonArray.removeAt h1 0 else h1
        let i2 := if (h1.length : Int) ≥ e.m_maxHistorySize then i1 - 1 else i1
        let h3 := h2 ++ [QJsonValue.object (currentState currentText cursorPos)]
        .ok (writeHistoryFile fileOpens
          { e with
            m_history := h3
            m_currentHistoryIndex := i2
            m_state := QJsonObject.insert e.m_state "currentIndex" (QJsonValue.ofInt i2) })

/-- The member function `Editor::onTextChanged()`, the slot connected to
`QTextEdit::textChanged`. -/
def onTextChanged (fileOpens : Bool) (e : Editor) : Except Fault Editor :=
  saveHistory fileOpens e

/-- The member function `Editor::saveHistoryIndex()`. -/
def saveHistoryIndex (fileOpens : Bool) (e : Editor) : Editor :=
  writeHistoryFile fileOpens
    { e with
      m_state := QJsonObject.insert e.m_state "currentIndex"
        (QJsonValue.ofInt e.m_currentHistoryIndex) }

/-- The call `m_textEdit->setText(t)` after construction: the widget shows `t`
with the cursor at the start and emits `textChanged`, which runs
`onTextChanged`. -/
def setText (fileOpens : Bool) (t : String) (e : Editor) : Except Fault Editor :=
  onTextChanged fileOpens { e with m_textEdit := { text := t, cursor := 0 } }

/-- The three statements `cursor = textCursor(); cursor.setPosition(p);
setTextCursor(cursor)`. -/
def setTextCursor (p : Int) (e : Editor) : Editor :=
  { e with m_textEdit := { e.m_textEdit with cursor := p } }

/-- The body shared by `executeUndo` and `executeRedo` once the index moved to
`newIndex`: show the state stored there with history events deactivated, then
save the index. -/
def restoreState (fileOpens : Bool) (newIndex : Int) (e : Editor) : Except Fault Editor :=
  let e1 := { e with m_deactivateHistoryEvent := true }
  let e2 := { e1 with m_currentHistoryIndex := newIndex }
  match QJsonArray.ref e2.m_history e2.m_currentHistoryIndex with
  | .error f => .error f
  | .ok v =>
    let state := v.toObject
    match setText fileOpens (QJsonObject.value state "text").toString e2 with
    | .error f => .error f
    | .ok e3 =>
      let e4 := setTextCursor (QJsonObject.value state "cursor").toInt e3
      let e5 := { e4 with m_deactivateHistoryEvent := false }
      .ok (saveHistoryIndex fileOpens e5)

/-- The member function `Editor::executeRedo()`. -/
def executeRedo (fileOpens : Bool) (e : Editor) : Except Fault Editor :=
  if e.m_currentHistoryIndex < (e.m_history.length : Int) - 1 then
    restoreState fileOpens (e.m_currentHistoryIndex + 1) e
  else .ok e

/-- The member function `Editor::executeUndo()`. -/
def executeUndo (fileOpens : Bool) (e : Editor) : Except Fault Editor :=
  if e.m_currentHistoryIndex > 0 then
    restoreState fileOpens (e.m_currentHistoryIndex - 1) e
  else .ok e

/-- The end of `Editor::loadHistory()`, from `m_history = saveData["history"].toArray()`
on, reached once the file was read, decompressed and parsed into the object
`saveData` with an array member `history`.  `loadHistory` runs inside the
constructor before `textChanged` is connected, so `setText` only changes the
widget there; the constructor sets `m_deactivateHistoryEvent` before the call
and clears it after, which leaves the flag of a fresh editor as it is. -/
def loadHistoryFrom (saveData : QJsonObject) (e : Editor) : Except Fault Editor :=
  let history := (QJsonObject.value saveData "history").toArray
  let state := QJsonObject.touch (QJsonObject.value saveData "state").toObject "currentIndex"
  let index := (QJsonObject.value state "currentIndex").toInt
  let e1 := { e with m_history := history, m_state := state, m_currentHistoryIndex := index }
  if index ≥ 0 ∧ index < (history.length : Int) then
    match QJsonArray.ref history index with
    | .error f => .error f
    | .ok v =>
      let currentHistory := v.toObject
      .ok { e1 with
            m_textEdit :=
              { text := (QJsonObject.value currentHistory "text").toString
                cursor := (QJsonObject.value currentHistory "cursor").toInt } }
  else .ok e1

/-- The `clear_history` action once the user answered Yes:
`m_history = QJsonArray(); m_currentHistoryIndex = -1; saveHistory();`. -/
def clearHistoryAction (fileOpens : Bool) (e : Editor) : Except Fault Editor :=
  saveHistory fileOpens { e with m_history := [], m_currentHistoryIndex := -1 }

/-- The user changed the widget content to `text` with the cursor at
`cursor`; the widget emits `textChanged`. -/
def record (fileOpens : Bool) (text : String) (cursor : Int) (e : Editor) : Except Fault Editor :=
  onTextChanged fileOpens { e with m_textEdit := { text := text, cursor := cursor } }

/-! ## Vocabulary of the specification -/

/-- The text a history entry restores: `entry.toObject()["text"].toString()`. -/
def entryText (v : QJsonValue) : String := (QJsonObject.value v.toObject "text").toString

/-- The cursor position a history entry restores: `entry.toObject()["cursor"].toInt()`. -/
def entryCursor (v : QJsonValue) : Int := (QJsonObject.value v.toObject "cursor").toInt

/-- The history entry `saveHistory` appends for the text `text` and cursor `cursor`. -/
def snapshot (text : String) (cursor : Int) : QJsonValue :=
  QJsonValue.object (currentState text cursor)

/-- The index invariant of the specification: an empty log has index -1, a
non-empty log has an index inside the log. -/
def IndexInvariant (e : Editor) : Prop :=
  (e.m_history = [] → e.m_currentHistoryIndex = -1) ∧
  (e.m_history ≠ [] →
    0 ≤ e.m_currentHistoryIndex ∧ e.m_currentHistoryIndex < (e.m_history.length : Int))

/-- The entry of the log stored at the index `i`, when there is one. -/
def entryAt (a : QJsonArray) (i : Int) : Option QJsonValue :=
  if 0 ≤ i then a[i.toNat]? else none

/-- The candidate `(text, cursor)` is one the specification records: the log
is empty, or the entry at the current index differs from it in text or in
cursor position. -/
def Accepted (e : Editor) (text : String) (cursor : Int) : Prop :=
  e.m_history = [] ∨
  ∃ v, entryAt e.m_history e.m_currentHistoryIndex = some v ∧
    (entryText v ≠ text ∨ entryCursor v ≠ cursor)

/-- The operations of the history store as the user triggers them. -/
inductive Op where
  | record (text : String) (cursor : Int)
  | undo
  | redo
  | clear

/-- One operation; `fileOpens` is the outcome of `QFile::open` during it. -/
def step (fileOpens : Bool) (op : Op) (e : Editor) : Except Fault Editor :=
  match op with
  | .record text cursor => record fileOpens text cursor e
  | .undo => executeUndo fileOpens e
  | .redo => executeRedo fileOpens e
  | .clear => clearHistoryAction fileOpens e

/-- A finite sequence of operations, each with the outcome of `QFile::open`
during it, run from left to right. -/
def run : Editor → List (Op × Bool) → Except Fault Editor
  | e, [] => .ok e
  | e, (op, fileOpens) :: rest =>
    match step fileOpens op e with
    | .error f => .error f
    | .ok e1 => run e1 rest

/-- The members as the constructor `Editor::Editor` initialises them (empty
log, index -1, history events active) with `m_maxHistorySize = maxSize`, an
empty widget and nothing written yet. -/
def freshEditor (maxSize : Int) : Editor :=
  { m_textEdit := { text := "", cursor := 0 }
    m_history := []
    m_currentHistoryIndex := -1
    m_deactivateHistoryEvent := false
    m_maxHistorySize := maxSize
    m_state := []
    fileWrites := [] }

/-- A sequence of `record` calls, each with its text, its cursor position and
the outcome of `QFile::open`, as operations. -/
def recordOps (calls : List ((String × Int) × Bool)) : List (Op × Bool) :=
  calls.map (fun call => (Op.record call.1.1 call.1.2, call.2))

/-- A store holding the single snapshot `("a", 1)` at index 0, capacity 3. -/
def oneEntryEditor : Editor :=
  { m_textEdit := { text := "a", cursor := 1 }
    m_history := [snapshot "a" 1]
    m_currentHistoryIndex := 0
    m_deactivateHistoryEvent := false
    m_maxHistorySize := 3
    m_state := []
    fileWrites := [] }

/-- The object parsed from a history file with the log `history` and the
persisted index `currentIndex`. -/
def envelope (history : List QJsonValue) (currentIndex : Int) : QJsonObject :=
  QJsonObject.insert (QJsonObject.insert [] "history" (.array history)) "state"
    (.object (QJsonObject.insert [] "currentIndex" (QJsonValue.ofInt currentIndex)))

/-- The store of capacity 3 as `loadHistory` leaves it after reading a file
whose `history` is empty and whose `state.currentIndex` is 3: an empty log
with index 3. -/
def danglingIndexEditor : Editor :=
  match loadHistoryFrom (envelope [] 3) (freshEditor 3) with
  | .ok e => e
  | .error _ => freshEditor 3

/-- The store after `record("a",1)`, `record("b",1)`, `undo` from the fresh
store of capacity 3: the log holds both snapshots and the index is 0. -/
def afterUndoEditor : Editor :=
  match run (freshEditor 3)
      [(Op.record "a" 1, true), (Op.record "b" 1, true), (Op.undo, true)] with
  | .ok e => e
  | .error _ => freshEditor 3

/-- A full store of capacity 2: snapshots `("a", 1)` and `("ab", 2)`, index 1. -/
def fullEditor : Editor :=
  { m_textEdit := { text := "ab", cursor := 2 }
    m_history := [snapshot "a" 1, snapshot "ab" 2]
    m_currentHistoryIndex := 1
    m_deactivateHistoryEvent := false
    m_maxHistorySize := 2
    m_state := QJsonObject.insert [] "currentIndex" (QJsonValue.ofInt 1)
    fileWrites := [] }

/-- The store after `record("a",1)`, `record("ab",2)`, `record("ab",2)` from
the fresh store of capacity 3. -/
def twoEntryEditor : Editor :=
  match run (freshEditor 3)
      [(Op.record "a" 1, true), (Op.record "ab" 2, true), (Op.record "ab" 2, true)] with
  | .ok e => e
  | .error _ => freshEditor 3

/-- The store of capacity 3 as `loadHistory` leaves it after reading a file
whose `history` is `[("a", 1)]` and whose `state.currentIndex` is -3: that
one-entry log with index -3. -/
def negativeIndexEditor : Editor :=
  match loadHistoryFrom (envelope [snapshot "a" 1] (-3)) (freshEditor 3) with
  | .ok e => e
  | .error _ => freshEditor 3

/-! ## Loading the history file -/

/-- The bytes of a `QByteArray`, each a number below 256. -/
abbrev QByteArray := List Nat

/-- How the zlib session of `decompressData` ends on given input bytes:
`inflateInit2` followed by the loop of `inflate` calls.  zlib is outside the
repository, so the session is an argument of `decompressData`. -/
inductive InflateOutcome where
  -- some call of `inflate` returns `Z_STREAM_END`; `output` is what was written
  | streamEnd (output : QByteArray)
  -- the call `inflateInit2` fails or a call of `inflate` returns a negative code
  | failed
  -- every call of `inflate` returns a non-negative code other than `Z_STREAM_END`
  | neverEnds

/-- The function `decompressData` of editor.cpp: empty input gives empty
output, a failed session gives empty output, a session that reaches
`Z_STREAM_END` gives the bytes written; the `do ... while (ret != Z_STREAM_END)`
loop does not end when that code never comes. -/
def decompressData (inflate : QByteArray → InflateOutcome) (data : QByteArray) :
    Except Fault QByteArray :=
  if data.isEmpty then .ok []
  else
    match inflate data with
    | .streamEnd output => .ok output
    | .failed => .ok []
    | .neverEnds => .error .nonTermination

/-- Qt's `QJsonValue::isArray()`. -/
def QJsonValue.isArray : QJsonValue → Bool
  | .array _ => true
  | _ => false

/-- Qt's `QJsonObject::contains(key)`. -/
def QJsonObject.contains (o : QJsonObject) (key : String) : Bool :=
  (o.lookup key).isSome

/-- The member function `Editor::loadHistory()`.  `file` is what
`QFile::open(ReadOnly)` and `readAll()` give (`none` when the file cannot be
opened), `inflate` is the zlib session and `fromJson` is
`QJsonDocument::fromJson` (`none` when it reports a parse error). -/
def loadHistory (file : Option QByteArray) (inflate : QByteArray → InflateOutcome)
    (fromJson : QByteArray → Option QJsonValue) (e : Editor) : Except Fault Editor :=
  match file with
  | none => .ok e
  | some compressedData =>
    match decompressData inflate compressedData with
    | .error f => .error f
    | .ok data =>
      if data.isEmpty then .ok e
      else
        match fromJson data with
        | none => .ok e
        | some (.object saveData) =>
          if !QJsonObject.contains saveData "history"
              || !(QJsonObject.value saveData "history").isArray then .ok e
          else loadHistoryFrom saveData e
        | some _ => .ok e

/-- The ways of the specification in which loading fails: the file is missing,
is empty, does not decompress (`decompressData` returns no bytes), does not
parse as JSON, parses to something that is not an object, or parses to an
object without a member `history` that is an array. -/
def LoadFailure (file : Option QByteArray) (inflate : QByteArray → InflateOutcome)
    (fromJson : QByteArray → Option QJsonValue) : Prop :=
  file = none ∨
  file = some [] ∨
  (∃ bytes, file = some bytes ∧ decompressData inflate bytes = .ok []) ∨
  (∃ bytes data, file = some bytes ∧ decompressData inflate bytes = .ok data ∧
    (fromJson data = none ∨
     (∃ doc, fromJson data = some doc ∧ ∀ members, doc ≠ QJsonValue.object members) ∨
     (∃ members, fromJson data = some (QJsonValue.object members) ∧
        (QJsonObject.contains members "history" = false ∨
         (QJsonObject.value members "history").isArray = false))))

/-- The log a parsed history file carries: `saveData["history"].toArray()`. -/
def persistedHistory (saveData : QJsonObject) : QJsonArray :=
  (QJsonObject.value saveData "history").toArray

/-- The index a parsed history file carries:
`saveData["state"].toObject()["currentIndex"].toInt()`, which is 0 when the
member is missing or is not a number that fits an `int`. -/
def persistedIndex (saveData : QJsonObject) : Int :=
  (QJsonObject.value (QJsonObject.value saveData "state").toObject "currentIndex").toInt

/-- The object parsed from a history file that has the log `history` and no
member `state`. -/
def envelopeWithoutState (history : List QJsonValue) : QJsonObject :=
  QJsonObject.insert [] "history" (.array history)

/-- The document written last to the history file holds the whole log of `e1`
as `history` and the index of `e1` as `state.currentIndex`, and it is the one
write made since `e`. -/
def PersistedMatches (e e1 : Editor) : Prop :=
  ∃ doc, e1.fileWrites = QJsonValue.object doc :: e.fileWrites ∧
    QJsonObject.value doc "history" = QJsonValue.array e1.m_history ∧
    QJsonObject.value (QJsonObject.value doc "state").toObject "currentIndex"
      = QJsonValue.ofInt e1.m_currentHistoryIndex

/-- The operation is a record or an undo. -/
def Op.isRecordOrUndo : Op → Bool
  | .record _ _ => true
  | .undo => true
  | _ => false

/-- The store after one `record("a", 1)` from the fresh store of capacity 0. -/
def inertEditor : Editor :=
  match run (freshEditor 0) [(Op.record "a" 1, true)] with
  | .ok e => e
  | .error _ => freshEditor 0

/-- The settings dialog accepted with `value` in the history spin box, whose
range is 1 to 99999: `m_maxHistorySize = historySpin->value()`. -/
def acceptSettings (value : Int) (e : Editor) : Editor :=
  { e with m_maxHistorySize := value }

/-- A store of capacity 1 whose log holds two snapshots, with the index at the
last one: the full store of capacity 2 after the settings dialog lowered the
capacity to 1. -/
def overfullEditor : Editor :=
  acceptSettings 1 fullEditor

/-- The store of capacity 3 as `loadHistory` leaves it after reading a file
whose `history` is `[("a", 1)]` and whose `state.currentIndex` is 5. -/
def loadedIndexFiveEditor : Editor :=
  match loadHistoryFrom (envelope [snapshot "a" 1] 5) (freshEditor 3) with
  | .ok e => e
  | .error _ => freshEditor 3

/-- The store of capacity 3 as `loadHistory` leaves it after reading a file
whose `history` is empty and which has no member `state`. -/
def loadedNoStateEditor : Editor :=
  match loadHistoryFrom (envelopeWithoutState []) (freshEditor 3) with
  | .ok e => e
  | .error _ => freshEditor 3

/-- The store of capacity 3 as `loadHistory` leaves it after reading a file
whose `history` is empty and whose `state.currentIndex` is -5. -/
def loadedIndexMinusFiveEditor : Editor :=
  match loadHistoryFrom (envelope [] (-5)) (freshEditor 3) with
  | .ok e => e
  | .error _ => freshEditor 3

/-! ## Lemmas on the array operations -/

theorem removeLast_eq_dropLast (a : QJsonArray) : QJsonArray.removeLast a = a.dropLast := by
  unfold QJsonArray.removeLast QJsonArray.removeAt
  cases a with
  | nil => simp
  | cons x xs =>
    have h : (0 : Int) ≤ ((x :: xs).length : Int) - 1 ∧
        ((x :: xs).length : Int) - 1 < ((x :: xs).length : Int) := by
      constructor
      · simp only [List.length_cons]; omega
      · omega
    rw [if_pos h]
    have h2 : (((x :: xs).length : Int) - 1).toNat + 1 = (x :: xs).length := by
      simp only [List.length_cons]; omega
    exact (List.dropLast_eq_eraseIdx h2).symm

theorem removeAt_zero (a : QJsonArray) : QJsonArray.removeAt a 0 = a.tail := by
  unfold QJsonArray.removeAt
  cases a with
  | nil => simp
  | cons x xs => simp

theorem removeAfterIndexLoop_ok (n : Nat) (a : QJsonArray) (idx : Int)
    (hn : a.length ≤ n) (hidx : -1 ≤ idx) :
    removeAfterIndexLoop n a idx = .ok (a.take (idx + 1).toNat) := by
  induction n generalizing a with
  | zero =>
    have ha : a = [] := List.length_eq_zero.mp (Nat.le_zero.mp hn)
    subst ha
    have h0 : ¬ (((([] : QJsonArray).length : Nat) : Int) > idx + 1) := by
      simp only [List.length_nil]; omega
    unfold removeAfterIndexLoop
    rw [if_neg h0, List.take_nil]
  | succ n ih =>
    unfold removeAfterIndexLoop
    by_cases h : (a.length : Int) > idx + 1
    · rw [if_pos h, removeLast_eq_dropLast, ih a.dropLast (by simp; omega)]
      congr 1
      rw [List.dropLast_eq_take, List.take_take]
      congr 1
      omega
    · rw [if_neg h]
      congr 1
      rw [List.take_of_length_le]
      omega

theorem removeAfterIndexLoop_diverges (n : Nat) (a : QJsonArray) (idx : Int)
    (hidx : idx < -1) :
    removeAfterIndexLoop n a idx = .error .nonTermination := by
  induction n generalizing a with
  | zero =>
    have : ((a.length : Nat) : Int) > idx + 1 := by omega
    simp [removeAfterIndexLoop, this]
  | succ n ih =>
    have : ((a.length : Nat) : Int) > idx + 1 := by omega
    unfold removeAfterIndexLoop
    rw [if_pos this]
    exact ih _

theorem removeAfterIndex_ok (a : QJsonArray) (idx : Int) (hidx : -1 ≤ idx) :
    removeAfterIndex a idx = .ok (a.take (idx + 1).toNat) :=
  removeAfterIndexLoop_ok a.length a idx (Nat.le_refl _) hidx

/-- With enough fuel the literal loop ends in the same array. -/
theorem removeAfterIndexFuel_ok (fuel : Nat) (a : QJsonArray) (idx : Int)
    (hn : a.length < fuel) (hidx : -1 ≤ idx) :
    removeAfterIndexFuel fuel a idx = some (a.take (idx + 1).toNat) := by
  induction fuel generalizing a with
  | zero => omega
  | succ n ih =>
    unfold removeAfterIndexFuel
    by_cases h : (a.length : Int) > idx + 1
    · rw [if_pos h, removeLast_eq_dropLast]
      have hl : a.dropLast.length < n := by
        simp only [List.length_dropLast]; omega
      rw [ih a.dropLast hl]
      congr 1
      rw [List.dropLast_eq_take, List.take_take]
      congr 1
      omega
    · rw [if_neg h]
      congr 1
      rw [List.take_of_length_le]
      omega

/-- Below index -1 the literal loop never ends, whatever the fuel. -/
theorem removeAfterIndexFuel_diverges (fuel : Nat) (a : QJsonArray) (idx : Int)
    (hidx : idx < -1) :
    removeAfterIndexFuel fuel a idx = none := by
  induction fuel generalizing a with
  | zero => rfl
  | succ n ih =>
    have : ((a.length : Nat) : Int) > idx + 1 := by omega
    unfold removeAfterIndexFuel
    rw [if_pos this]
    exact ih _

/-! ## Lemmas on `saveHistory`, undo and redo -/

theorem ref_of_getElem? (a : QJsonArray) (i : Int) (v : QJsonValue) (hi : 0 ≤ i)
    (hv : a[i.toNat]? = some v) : QJsonArray.ref a i = .ok v := by
  unfold QJsonArray.ref
  have hlt : i.toNat < a.length := by
    rcases List.getElem?_eq_some_iff.mp hv with ⟨h, _⟩
    exact h
  have h : 0 ≤ i ∧ i < (a.length : Int) := ⟨hi, by omega⟩
  rw [if_pos h, hv]

theorem ref_out_of_range (a : QJsonArray) (i : Int) (h : i < 0 ∨ (a.length : Int) ≤ i) :
    QJsonArray.ref a i = .error .indexOutOfRange := by
  unfold QJsonArray.ref
  have : ¬ (0 ≤ i ∧ i < (a.length : Int)) := by omega
  rw [if_neg this]

theorem entryAt_nonneg (a : QJsonArray) (i : Int) (h : 0 ≤ i) :
    entryAt a i = a[i.toNat]? := by
  unfold entryAt
  rw [if_pos h]

theorem entryAt_some (a : QJsonArray) (i : Int) (v : QJsonValue) (h : entryAt a i = some v) :
    0 ≤ i ∧ a[i.toNat]? = some v := by
  unfold entryAt at h
  by_cases h0 : 0 ≤ i
  · rw [if_pos h0] at h
    exact ⟨h0, h⟩
  · rw [if_neg h0] at h
    cases h

theorem exists_entry (a : QJsonArray) (i : Int) (h0 : 0 ≤ i) (h1 : i < (a.length : Int)) :
    ∃ v, a[i.toNat]? = some v := by
  have hlt : i.toNat < a.length := by omega
  exact ⟨a[i.toNat], List.getElem?_eq_getElem hlt⟩

theorem shouldSave_nil (e : Editor) (t : String) (c : Int) (h : e.m_history = []) :
    shouldSave e t c = .ok true := by
  unfold shouldSave
  simp [h]

theorem shouldSave_negative (e : Editor) (t : String) (c : Int) (h : e.m_history ≠ [])
    (hidx : e.m_currentHistoryIndex < 0) : shouldSave e t c = .ok false := by
  unfold shouldSave
  have h1 : e.m_history.isEmpty = false := by
    cases hh : e.m_history with
    | nil => exact absurd hh h
    | cons x xs => rfl
  have h2 : ¬ (e.m_currentHistoryIndex ≥ 0) := by omega
  simp [h1, h2]

theorem shouldSave_entry (e : Editor) (t : String) (c : Int) (v : QJsonValue)
    (hidx : 0 ≤ e.m_currentHistoryIndex)
    (hv : e.m_history[e.m_currentHistoryIndex.toNat]? = some v) :
    shouldSave e t c = .ok (entryText v != t || entryCursor v != c) := by
  unfold shouldSave
  have h1 : e.m_history.isEmpty = false := by
    cases hh : e.m_history with
    | nil => rw [hh] at hv; simp at hv
    | cons x xs => rfl
  have h2 : e.m_currentHistoryIndex ≥ 0 := hidx
  rw [ref_of_getElem? _ _ v hidx hv]
  simp [h1, h2, entryText, entryCursor]

theorem shouldSave_true_iff (e : Editor) (t : String) (c : Int) (hinv : IndexInvariant e) :
    (shouldSave e t c = .ok true ↔ Accepted e t c) ∧
    (shouldSave e t c = .ok false ↔ ¬ Accepted e t c) := by
  by_cases hne : e.m_history = []
  · have hs := shouldSave_nil e t c hne
    have ha : Accepted e t c := Or.inl hne
    rw [hs]
    simp [ha]
  · obtain ⟨h0, h1⟩ := hinv.2 hne
    obtain ⟨v, hv⟩ := exists_entry _ _ h0 h1
    have hs := shouldSave_entry e t c v h0 hv
    rw [hs]
    have hacc : Accepted e t c ↔ (entryText v ≠ t ∨ entryCursor v ≠ c) := by
      unfold Accepted
      constructor
      · rintro (h | ⟨w, hw, hd⟩)
        · exact absurd h hne
        · rw [entryAt_nonneg _ _ h0, hv] at hw
          cases hw
          exact hd
      · intro hd
        exact Or.inr ⟨v, (entryAt_nonneg _ _ h0).trans hv, hd⟩
    rw [hacc]
    by_cases ht : entryText v = t <;> by_cases hc : entryCursor v = c <;> simp [ht, hc]

@[simp] theorem writeHistoryFile_history (o : Bool) (e : Editor) :
    (writeHistoryFile o e).m_history = e.m_history := by
  unfold writeHistoryFile; cases o <;> rfl

@[simp] theorem writeHistoryFile_index (o : Bool) (e : Editor) :
    (writeHistoryFile o e).m_currentHistoryIndex = e.m_currentHistoryIndex := by
  unfold writeHistoryFile; cases o <;> rfl

@[simp] theorem writeHistoryFile_textEdit (o : Bool) (e : Editor) :
    (writeHistoryFile o e).m_textEdit = e.m_textEdit := by
  unfold writeHistoryFile; cases o <;> rfl

@[simp] theorem writeHistoryFile_deactivate (o : Bool) (e : Editor) :
    (writeHistoryFile o e).m_deactivateHistoryEvent = e.m_deactivateHistoryEvent := by
  unfold writeHistoryFile; cases o <;> rfl

@[simp] theorem writeHistoryFile_maxSize (o : Bool) (e : Editor) :
    (writeHistoryFile o e).m_maxHistorySize = e.m_maxHistorySize := by
  unfold writeHistoryFile; cases o <;> rfl

@[simp] theorem writeHistoryFile_state (o : Bool) (e : Editor) :
    (writeHistoryFile o e).m_state = e.m_state := by
  unfold writeHistoryFile; cases o <;> rfl

theorem writeHistoryFile_writes (o : Bool) (e : Editor) :
    (writeHistoryFile o e).fileWrites =
      if o then QJsonValue.object (saveData e) :: e.fileWrites else e.fileWrites := by
  unfold writeHistoryFile; cases o <;> rfl

theorem saveHistory_deactivated (o : Bool) (e : Editor)
    (hf : e.m_deactivateHistoryEvent = true) : saveHistory o e = .ok e := by
  unfold saveHistory
  simp [hf]

theorem saveHistory_rejected (o : Bool) (e : Editor)
    (hf : e.m_deactivateHistoryEvent = false)
    (hs : shouldSave e e.m_textEdit.text e.m_textEdit.cursor = .ok false) :
    saveHistory o e = .ok e := by
  unfold saveHistory
  simp [hf, hs]

theorem saveHistory_accepted (o : Bool) (e : Editor)
    (hf : e.m_deactivateHistoryEvent = false)
    (hs : shouldSave e e.m_textEdit.text e.m_textEdit.cursor = .ok true)
    (hidx : -1 ≤ e.m_currentHistoryIndex) :
    saveHistory o e = .ok (writeHistoryFile o
      { e with
        m_history :=
          (if ((e.m_history.take (e.m_currentHistoryIndex + 1).toNat).length : Int)
              ≥ e.m_maxHistorySize
            then (e.m_history.take (e.m_currentHistoryIndex + 1).toNat).tail
            else e.m_history.take (e.m_currentHistoryIndex + 1).toNat)
          ++ [snapshot e.m_textEdit.text e.m_textEdit.cursor]
        m_currentHistoryIndex :=
          if ((e.m_history.take (e.m_currentHistoryIndex + 1).toNat).length : Int)
              ≥ e.m_maxHistorySize
            then e.m_currentHistoryIndex + 1 - 1 else e.m_currentHistoryIndex + 1
        m_state := QJsonObject.insert e.m_state "currentIndex"
          (QJsonValue.ofInt
            (if ((e.m_history.take (e.m_currentHistoryIndex + 1).toNat).length : Int)
                ≥ e.m_maxHistorySize
              then e.m_currentHistoryIndex + 1 - 1 else e.m_currentHistoryIndex + 1)) }) := by
  unfold saveHistory
  simp only [hf, hs, removeAfterIndex_ok _ _ hidx, removeAt_zero, snapshot]
  rfl

theorem length_take_index (a : QJsonArray) (idx : Int) (h0 : -1 ≤ idx)
    (h1 : idx < (a.length : Int)) :
    ((a.take (idx + 1).toNat).length : Int) = idx + 1 := by
  rw [List.length_take]
  omega

/-- An accepted `saveHistory` that does not evict: the entries up to the index
are kept, the candidate is appended and the index grows by one. -/
theorem saveHistory_append (o : Bool) (e : Editor)
    (hf : e.m_deactivateHistoryEvent = false)
    (hs : shouldSave e e.m_textEdit.text e.m_textEdit.cursor = .ok true)
    (h0 : -1 ≤ e.m_currentHistoryIndex)
    (h1 : e.m_currentHistoryIndex < (e.m_history.length : Int))
    (hm : e.m_currentHistoryIndex + 1 < e.m_maxHistorySize) :
    ∃ e1, saveHistory o e = .ok e1 ∧
      e1.m_history = e.m_history.take (e.m_currentHistoryIndex + 1).toNat
        ++ [snapshot e.m_textEdit.text e.m_textEdit.cursor] ∧
      e1.m_currentHistoryIndex = e.m_currentHistoryIndex + 1 ∧
      e1.m_textEdit = e.m_textEdit ∧
      e1.m_deactivateHistoryEvent = false ∧
      e1.m_maxHistorySize = e.m_maxHistorySize ∧
      e1.fileWrites =
        (if o then QJsonValue.object (saveData e1) :: e.fileWrites else e.fileWrites) := by
  have hlen := length_take_index e.m_history e.m_currentHistoryIndex h0 h1
  have hc : ¬ (((e.m_history.take (e.m_currentHistoryIndex + 1).toNat).length : Int)
      ≥ e.m_maxHistorySize) := by omega
  refine ⟨_, saveHistory_accepted o e hf hs h0, ?_, ?_, ?_, ?_, ?_, ?_⟩
  · simp only [writeHistoryFile_history, if_neg hc]
  · simp only [writeHistoryFile_index, if_neg hc]
  · simp only [writeHistoryFile_textEdit]
  · simp only [writeHistoryFile_deactivate, hf]
  · simp only [writeHistoryFile_maxSize]
  · rw [writeHistoryFile_writes]
    cases o
    · rfl
    · rfl

/-- An accepted `saveHistory` that evicts: of the entries up to the index the
first is dropped, the candidate is appended and the index stays. -/
theorem saveHistory_evict (o : Bool) (e : Editor)
    (hf : e.m_deactivateHistoryEvent = false)
    (hs : shouldSave e e.m_textEdit.text e.m_textEdit.cursor = .ok true)
    (h0 : -1 ≤ e.m_currentHistoryIndex)
    (h1 : e.m_currentHistoryIndex < (e.m_history.length : Int))
    (hm : e.m_maxHistorySize ≤ e.m_currentHistoryIndex + 1) :
    ∃ e1, saveHistory o e = .ok e1 ∧
      e1.m_history = (e.m_history.take (e.m_currentHistoryIndex + 1).toNat).tail
        ++ [snapshot e.m_textEdit.text e.m_textEdit.cursor] ∧
      e1.m_currentHistoryIndex = e.m_currentHistoryIndex ∧
      e1.m_textEdit = e.m_textEdit ∧
      e1.m_deactivateHistoryEvent = false ∧
      e1.m_maxHistorySize = e.m_maxHistorySize ∧
      e1.fileWrites =
        (if o then QJsonValue.object (saveData e1) :: e.fileWrites else e.fileWrites) := by
  have hlen := length_take_index e.m_history e.m_currentHistoryIndex h0 h1
  have hc : ((e.m_history.take (e.m_currentHistoryIndex + 1).toNat).length : Int)
      ≥ e.m_maxHistorySize := by omega
  refine ⟨_, saveHistory_accepted o e hf hs h0, ?_, ?_, ?_, ?_, ?_, ?_⟩
  · simp only [writeHistoryFile_history, if_pos hc]
  · simp only [writeHistoryFile_index, if_pos hc]
    omega
  · simp only [writeHistoryFile_textEdit]
  · simp only [writeHistoryFile_deactivate, hf]
  · simp only [writeHistoryFile_maxSize]
  · rw [writeHistoryFile_writes]
    cases o
    · rfl
    · rfl

/-- The body of undo and redo at an index inside the log: the log is kept, the
index becomes `i`, the widget shows the entry stored there, and the index is
saved. -/
theorem restoreState_entry (o : Bool) (i : Int) (e : Editor) (v : QJsonValue)
    (h0 : 0 ≤ i) (hv : e.m_history[i.toNat]? = some v) :
    ∃ e1, restoreState o i e = .ok e1 ∧
      e1.m_history = e.m_history ∧
      e1.m_currentHistoryIndex = i ∧
      e1.m_textEdit = { text := entryText v, cursor := entryCursor v } ∧
      e1.m_deactivateHistoryEvent = false ∧
      e1.m_maxHistorySize = e.m_maxHistorySize ∧
      e1.fileWrites =
        (if o then QJsonValue.object (saveData e1) :: e.fileWrites else e.fileWrites) := by
  unfold restoreState
  simp only [ref_of_getElem? _ _ v h0 hv, setText, onTextChanged]
  rw [saveHistory_deactivated _ _ rfl]
  refine ⟨_, rfl, ?_, ?_, ?_, ?_, ?_, ?_⟩
  · simp [saveHistoryIndex, setTextCursor]
  · simp [saveHistoryIndex, setTextCursor]
  · simp [saveHistoryIndex, setTextCursor, entryText, entryCursor]
  · simp [saveHistoryIndex, setTextCursor]
  · simp [saveHistoryIndex, setTextCursor]
  · simp only [saveHistoryIndex]
    rw [writeHistoryFile_writes]
    cases o
    · rfl
    · rfl

theorem restoreState_out_of_range (o : Bool) (i : Int) (e : Editor)
    (h : i < 0 ∨ (e.m_history.length : Int) ≤ i) :
    restoreState o i e = .error .indexOutOfRange := by
  unfold restoreState
  simp only [ref_out_of_range _ _ h]

/-! ## Preservation of the index invariant -/

theorem indexInvariant_of_bounds (e : Editor) (h0 : 0 ≤ e.m_currentHistoryIndex)
    (h1 : e.m_currentHistoryIndex < (e.m_history.length : Int)) : IndexInvariant e := by
  constructor
  · intro h
    rw [h] at h1
    simp only [List.length_nil] at h1
    omega
  · intro _
    exact ⟨h0, h1⟩

theorem indexInvariant_bounds (e : Editor) (h : IndexInvariant e) :
    -1 ≤ e.m_currentHistoryIndex ∧ e.m_currentHistoryIndex < (e.m_history.length : Int) := by
  by_cases hne : e.m_history = []
  · have := h.1 hne
    rw [hne]
    simp only [List.length_nil]
    omega
  · have := h.2 hne
    omega

theorem shouldSave_total (e : Editor) (t : String) (c : Int) (h : IndexInvariant e) :
    ∃ b, shouldSave e t c = .ok b := by
  by_cases hne : e.m_history = []
  · exact ⟨true, shouldSave_nil e t c hne⟩
  · obtain ⟨h0, h1⟩ := h.2 hne
    obtain ⟨v, hv⟩ := exists_entry _ _ h0 h1
    exact ⟨_, shouldSave_entry e t c v h0 hv⟩

/-- One `saveHistory` from a state that satisfies the index invariant, with
history events active and a positive capacity: it returns, keeps the
invariant, the flag and the capacity, and keeps the log within the capacity
when it was so before. -/
theorem saveHistory_preserves (o : Bool) (e : Editor) (hinv : IndexInvariant e)
    (hf : e.m_deactivateHistoryEvent = false) (hmax : 1 ≤ e.m_maxHistorySize) :
    ∃ e1, saveHistory o e = .ok e1 ∧ IndexInvariant e1 ∧
      e1.m_deactivateHistoryEvent = false ∧
      e1.m_maxHistorySize = e.m_maxHistorySize ∧
      ((e.m_history.length : Int) ≤ e.m_maxHistorySize →
        (e1.m_history.length : Int) ≤ e1.m_maxHistorySize) := by
  obtain ⟨hlo, hhi⟩ := indexInvariant_bounds e hinv
  obtain ⟨b, hb⟩ := shouldSave_total e e.m_textEdit.text e.m_textEdit.cursor hinv
  cases b with
  | false =>
    exact ⟨e, saveHistory_rejected o e hf hb, hinv, hf, rfl, fun h => h⟩
  | true =>
    have hlen := length_take_index e.m_history e.m_currentHistoryIndex hlo hhi
    by_cases hm : e.m_currentHistoryIndex + 1 < e.m_maxHistorySize
    · obtain ⟨e1, hrun, hh, hi, _, hf1, hm1, _⟩ := saveHistory_append o e hf hb hlo hhi hm
      have hl : (e1.m_history.length : Int) = e.m_currentHistoryIndex + 2 := by
        rw [hh, List.length_append, List.length_singleton]
        push_cast
        omega
      refine ⟨e1, hrun, indexInvariant_of_bounds e1 (by omega) (by omega), hf1, hm1, ?_⟩
      intro _
      omega
    · obtain ⟨e1, hrun, hh, hi, _, hf1, hm1, _⟩ :=
        saveHistory_evict o e hf hb hlo hhi (by omega)
      have hl : (e1.m_history.length : Int) = e.m_currentHistoryIndex + 1 := by
        rw [hh, List.length_append, List.length_singleton, List.length_tail]
        push_cast
        omega
      refine ⟨e1, hrun, indexInvariant_of_bounds e1 (by omega) (by omega), hf1, hm1, ?_⟩
      intro _
      omega

theorem record_preserves (o : Bool) (t : String) (c : Int) (e : Editor)
    (hinv : IndexInvariant e)
    (hf : e.m_deactivateHistoryEvent = false) (hmax : 1 ≤ e.m_maxHistorySize) :
    ∃ e1, record o t c e = .ok e1 ∧ IndexInvariant e1 ∧
      e1.m_deactivateHistoryEvent = false ∧
      e1.m_maxHistorySize = e.m_maxHistorySize ∧
      ((e.m_history.length : Int) ≤ e.m_maxHistorySize →
        (e1.m_history.length : Int) ≤ e1.m_maxHistorySize) :=
  saveHistory_preserves o { e with m_textEdit := { text := t, cursor := c } } hinv hf hmax

theorem clearHistoryAction_preserves (o : Bool) (e : Editor)
    (hf : e.m_deactivateHistoryEvent = false) (hmax : 1 ≤ e.m_maxHistorySize) :
    ∃ e1, clearHistoryAction o e = .ok e1 ∧ IndexInvariant e1 ∧
      e1.m_deactivateHistoryEvent = false ∧
      e1.m_maxHistorySize = e.m_maxHistorySize := by
  have hinv : IndexInvariant { e with m_history := [], m_currentHistoryIndex := -1 } :=
    ⟨fun _ => rfl, fun h => absurd rfl h⟩
  obtain ⟨e1, h1, h2, h3, h4, _⟩ :=
    saveHistory_preserves o { e with m_history := [], m_currentHistoryIndex := -1 } hinv hf hmax
  exact ⟨e1, h1, h2, h3, h4⟩

theorem executeUndo_preserves (o : Bool) (e : Editor) (hinv : IndexInvariant e)
    (hf : e.m_deactivateHistoryEvent = false) :
    ∃ e1, executeUndo o e = .ok e1 ∧ IndexInvariant e1 ∧
      e1.m_deactivateHistoryEvent = false ∧
      e1.m_maxHistorySize = e.m_maxHistorySize := by
  obtain ⟨hlo, hhi⟩ := indexInvariant_bounds e hinv
  unfold executeUndo
  by_cases h : e.m_currentHistoryIndex > 0
  · rw [if_pos h]
    obtain ⟨v, hv⟩ := exists_entry e.m_history (e.m_currentHistoryIndex - 1)
      (by omega) (by omega)
    obtain ⟨e1, hrun, hh, hi, _, hf1, hm1, _⟩ :=
      restoreState_entry o (e.m_currentHistoryIndex - 1) e v (by omega) hv
    refine ⟨e1, hrun, indexInvariant_of_bounds e1 (by omega) ?_, hf1, hm1⟩
    rw [hh, hi]
    omega
  · rw [if_neg h]
    exact ⟨e, rfl, hinv, hf, rfl⟩

theorem executeRedo_preserves (o : Bool) (e : Editor) (hinv : IndexInvariant e)
    (hf : e.m_deactivateHistoryEvent = false) :
    ∃ e1, executeRedo o e = .ok e1 ∧ IndexInvariant e1 ∧
      e1.m_deactivateHistoryEvent = false ∧
      e1.m_maxHistorySize = e.m_maxHistorySize := by
  obtain ⟨hlo, hhi⟩ := indexInvariant_bounds e hinv
  unfold executeRedo
  by_cases h : e.m_currentHistoryIndex < (e.m_history.length : Int) - 1
  · rw [if_pos h]
    obtain ⟨v, hv⟩ := exists_entry e.m_history (e.m_currentHistoryIndex + 1)
      (by omega) (by omega)
    obtain ⟨e1, hrun, hh, hi, _, hf1, hm1, _⟩ :=
      restoreState_entry o (e.m_currentHistoryIndex + 1) e v (by omega) hv
    refine ⟨e1, hrun, indexInvariant_of_bounds e1 (by omega) ?_, hf1, hm1⟩
    rw [hh, hi]
    omega
  · rw [if_neg h]
    exact ⟨e, rfl, hinv, hf, rfl⟩

theorem step_preserves (o : Bool) (op : Op) (e : Editor) (hinv : IndexInvariant e)
    (hf : e.m_deactivateHistoryEvent = false) (hmax : 1 ≤ e.m_maxHistorySize) :
    ∃ e1, step o op e = .ok e1 ∧ IndexInvariant e1 ∧
      e1.m_deactivateHistoryEvent = false ∧
      e1.m_maxHistorySize = e.m_maxHistorySize := by
  cases op with
  | record t c =>
    obtain ⟨e1, h1, h2, h3, h4, _⟩ := record_preserves o t c e hinv hf hmax
    exact ⟨e1, h1, h2, h3, h4⟩
  | undo => exact executeUndo_preserves o e hinv hf
  | redo => exact executeRedo_preserves o e hinv hf
  | clear => exact clearHistoryAction_preserves o e hf hmax

theorem run_preserves (ops : List (Op × Bool)) (e : Editor) (hinv : IndexInvariant e)
    (hf : e.m_deactivateHistoryEvent = false) (hmax : 1 ≤ e.m_maxHistorySize) :
    ∃ e1, run e ops = .ok e1 ∧ IndexInvariant e1 ∧
      e1.m_deactivateHistoryEvent = false ∧
      e1.m_maxHistorySize = e.m_maxHistorySize := by
  induction ops generalizing e with
  | nil => exact ⟨e, rfl, hinv, hf, rfl⟩
  | cons x rest ih =>
    obtain ⟨op, o⟩ := x
    obtain ⟨e1, h1, h2, h3, h4⟩ := step_preserves o op e hinv hf hmax
    obtain ⟨e2, k1, k2, k3, k4⟩ := ih e1 h2 h3 (by omega)
    refine ⟨e2, ?_, k2, k3, by omega⟩
    simp only [run, h1]
    exact k1

theorem toInt_ofInt (n : Int) (h : isInt n) : (QJsonValue.ofInt n).toInt = n := by
  unfold QJsonValue.ofInt QJsonValue.toInt
  obtain ⟨h1, h2⟩ := h
  simp only [Rat.intCast_den, Rat.intCast_num]
  rw [if_pos ⟨trivial, h1, h2⟩]

theorem entryText_snapshot (t : String) (c : Int) : entryText (snapshot t c) = t := by
  simp [entryText, snapshot, currentState, QJsonObject.insert, QJsonObject.value,
    QJsonValue.toObject, QJsonValue.toString, List.lookup]

theorem entryCursor_snapshot (t : String) (c : Int) (h : isInt c) :
    entryCursor (snapshot t c) = c := by
  have : QJsonObject.value (snapshot t c).toObject "cursor" = QJsonValue.ofInt c := by
    simp [snapshot, currentState, QJsonObject.insert, QJsonObject.value,
      QJsonValue.toObject, List.lookup]
  unfold entryCursor
  rw [this]
  exact toInt_ofInt c h

/-- An accepted `saveHistory` changes the log or the index (the cursor being a
C++ `int`). -/
theorem saveHistory_changes (o : Bool) (e e1 : Editor) (hinv : IndexInvariant e)
    (hf : e.m_deactivateHistoryEvent = false)
    (hc : isInt e.m_textEdit.cursor)
    (hacc : Accepted e e.m_textEdit.text e.m_textEdit.cursor)
    (hrun : saveHistory o e = .ok e1) :
    e1.m_history ≠ e.m_history ∨ e1.m_currentHistoryIndex ≠ e.m_currentHistoryIndex := by
  obtain ⟨hlo, hhi⟩ := indexInvariant_bounds e hinv
  have hb := (shouldSave_true_iff e e.m_textEdit.text e.m_textEdit.cursor hinv).1.mpr hacc
  by_cases hm : e.m_currentHistoryIndex + 1 < e.m_maxHistorySize
  · obtain ⟨e2, hrun2, _, hi, _⟩ := saveHistory_append o e hf hb hlo hhi hm
    rw [hrun] at hrun2
    cases hrun2
    right
    omega
  · obtain ⟨e2, hrun2, hh, hi, _⟩ := saveHistory_evict o e hf hb hlo hhi (by omega)
    rw [hrun] at hrun2
    cases hrun2
    left
    intro heq
    rcases hacc with hnil | ⟨v, hv, hd⟩
    · rw [heq, hnil] at hh
      simp at hh
    · obtain ⟨h0, hv⟩ := entryAt_some _ _ _ hv
      have hlen := length_take_index e.m_history e.m_currentHistoryIndex hlo hhi
      have hl : (e1.m_history.length : Int) = e.m_currentHistoryIndex + 1 := by
        rw [hh, List.length_append, List.length_singleton, List.length_tail]
        push_cast
        omega
      have hlast : e1.m_history.getLast? =
          some (snapshot e.m_textEdit.text e.m_textEdit.cursor) := by
        rw [hh]
        simp
      rw [heq] at hl hlast
      rw [List.getLast?_eq_getElem?] at hlast
      have hidx : e.m_history.length - 1 = e.m_currentHistoryIndex.toNat := by omega
      rw [hidx, hv] at hlast
      cases hlast
      rcases hd with hd | hd
      · exact hd (entryText_snapshot _ _)
      · exact hd (entryCursor_snapshot _ _ hc)

theorem run_records_preserves (calls : List ((String × Int) × Bool)) (e : Editor)
    (hinv : IndexInvariant e)
    (hf : e.m_deactivateHistoryEvent = false) (hmax : 1 ≤ e.m_maxHistorySize)
    (hlen : (e.m_history.length : Int) ≤ e.m_maxHistorySize) :
    ∃ e1, run e (recordOps calls) = .ok e1 ∧ IndexInvariant e1 ∧
      e1.m_deactivateHistoryEvent = false ∧
      e1.m_maxHistorySize = e.m_maxHistorySize ∧
      (e1.m_history.length : Int) ≤ e1.m_maxHistorySize := by
  induction calls generalizing e with
  | nil => exact ⟨e, rfl, hinv, hf, rfl, hlen⟩
  | cons x rest ih =>
    obtain ⟨⟨t, c⟩, o⟩ := x
    obtain ⟨e1, h1, h2, h3, h4, h5⟩ := record_preserves o t c e hinv hf hmax
    obtain ⟨e2, k1, k2, k3, k4, k5⟩ := ih e1 h2 h3 (by omega) (h5 hlen)
    refine ⟨e2, ?_, k2, k3, by omega, k5⟩
    simp only [recordOps, List.map_cons, run, step, h1]
    exact k1

/-- What one `record` does in a state that satisfies the index invariant. -/
theorem record_outcome (o : Bool) (t : String) (c : Int) (e : Editor)
    (hinv : IndexInvariant e) (hf : e.m_deactivateHistoryEvent = false) (hc : isInt c) :
    ∃ e1, record o t c e = .ok e1 ∧
      (Accepted e t c →
        (e1.m_history ≠ e.m_history ∨
          e1.m_currentHistoryIndex ≠ e.m_currentHistoryIndex) ∧
        e1.m_history.getLast? = some (snapshot t c) ∧
        e1.fileWrites =
          (if o then QJsonValue.object (saveData e1) :: e.fileWrites else e.fileWrites)) ∧
      (¬ Accepted e t c → e1 = { e with m_textEdit := { text := t, cursor := c } }) := by
  obtain ⟨hlo, hhi⟩ := indexInvariant_bounds e hinv
  have hiff := shouldSave_true_iff e t c hinv
  by_cases hacc : Accepted e t c
  · have hb := hiff.1.mpr hacc
    have hinv1 : IndexInvariant { e with m_textEdit := { text := t, cursor := c } } := hinv
    by_cases hm : e.m_currentHistoryIndex + 1 < e.m_maxHistorySize
    · obtain ⟨e1, hrun, hh, hi, _, _, _, hw⟩ :=
        saveHistory_append o { e with m_textEdit := { text := t, cursor := c } } hf hb hlo hhi hm
      refine ⟨e1, hrun, ?_, fun h => absurd hacc h⟩
      intro _
      refine ⟨saveHistory_changes o { e with m_textEdit := { text := t, cursor := c } } e1
        hinv1 hf hc hacc hrun, ?_, hw⟩
      rw [hh]
      simp
    · obtain ⟨e1, hrun, hh, hi, _, _, _, hw⟩ :=
        saveHistory_evict o { e with m_textEdit := { text := t, cursor := c } } hf hb hlo hhi
          (by simp only; omega)
      refine ⟨e1, hrun, ?_, fun h => absurd hacc h⟩
      intro _
      refine ⟨saveHistory_changes o { e with m_textEdit := { text := t, cursor := c } } e1
        hinv1 hf hc hacc hrun, ?_, hw⟩
      rw [hh]
      simp
  · have hb := hiff.2.mpr hacc
    refine ⟨_, saveHistory_rejected o { e with m_textEdit := { text := t, cursor := c } } hf hb,
      fun h => absurd h hacc, fun _ => rfl⟩

theorem shouldSave_after_snapshot (e : Editor) (t : String) (c : Int) (front : QJsonArray)
    (hc : isInt c) (hh : e.m_history = front ++ [snapshot t c])
    (hi : e.m_currentHistoryIndex = (front.length : Int) ∨ e.m_currentHistoryIndex < 0) :
    shouldSave e t c = .ok false := by
  have hne : e.m_history ≠ [] := by
    rw [hh]
    simp
  rcases hi with hi | hi
  · have hv : e.m_history[e.m_currentHistoryIndex.toNat]? = some (snapshot t c) := by
      rw [hh, hi]
      simp
    rw [shouldSave_entry e t c _ (by omega) hv, entryText_snapshot, entryCursor_snapshot _ _ hc]
    simp
  · exact shouldSave_negative e t c hne hi

theorem editor_textEdit_eta (e : Editor) (w : QTextEdit) (h : e.m_textEdit = w) :
    { e with m_textEdit := w } = e := by
  cases e
  simp only at h
  subst h
  rfl

/-- Recording the same pair twice: in a state whose index lies below the log
length and is -1 when the log is empty, the second call returns the state the
first one produced. -/
theorem record_twice (o o2 : Bool) (t : String) (c : Int) (e : Editor)
    (hlt : e.m_currentHistoryIndex < (e.m_history.length : Int))
    (hnil : e.m_history = [] → e.m_currentHistoryIndex = -1) (hc : isInt c) :
    ∃ e1, record o t c e = .ok e1 ∧ record o2 t c e1 = .ok e1 := by
  cases hf : e.m_deactivateHistoryEvent with
  | true =>
    refine ⟨{ e with m_textEdit := { text := t, cursor := c } },
      saveHistory_deactivated o _ hf, saveHistory_deactivated o2 _ hf⟩
  | false =>
    by_cases hneg : e.m_history ≠ [] ∧ e.m_currentHistoryIndex < 0
    · have hb : shouldSave { e with m_textEdit := { text := t, cursor := c } } t c
          = .ok false := shouldSave_negative _ t c hneg.1 hneg.2
      exact ⟨{ e with m_textEdit := { text := t, cursor := c } },
        saveHistory_rejected o _ hf hb, saveHistory_rejected o2 _ hf hb⟩
    · have hlo : -1 ≤ e.m_currentHistoryIndex := by
        by_cases hn : e.m_history = []
        · have := hnil hn
          omega
        · have : ¬ e.m_currentHistoryIndex < 0 := fun h => hneg ⟨hn, h⟩
          omega
      have hinv : IndexInvariant e := ⟨hnil, fun hn => ⟨by
        have : ¬ e.m_currentHistoryIndex < 0 := fun h => hneg ⟨hn, h⟩
        omega, hlt⟩⟩
      obtain ⟨b, hb⟩ := shouldSave_total e t c hinv
      cases b with
      | false =>
        have hb1 : shouldSave { e with m_textEdit := { text := t, cursor := c } } t c
            = .ok false := hb
        exact ⟨{ e with m_textEdit := { text := t, cursor := c } },
          saveHistory_rejected o _ hf hb1, saveHistory_rejected o2 _ hf hb1⟩
      | true =>
        have hb1 : shouldSave { e with m_textEdit := { text := t, cursor := c } } t c
            = .ok true := hb
        have hlen := length_take_index e.m_history e.m_currentHistoryIndex hlo hlt
        have second : ∀ e1 : Editor, ∀ front : QJsonArray,
            e1.m_history = front ++ [snapshot t c] →
            (e1.m_currentHistoryIndex = (front.length : Int) ∨ e1.m_currentHistoryIndex < 0) →
            e1.m_textEdit = { text := t, cursor := c } →
            e1.m_deactivateHistoryEvent = false →
            record o2 t c e1 = .ok e1 := by
          intro e1 front hh hi ht hf1
          have hs := shouldSave_after_snapshot e1 t c front hc hh hi
          have heta := editor_textEdit_eta e1 { text := t, cursor := c } ht
          unfold record onTextChanged
          rw [heta]
          have hs1 : shouldSave e1 e1.m_textEdit.text e1.m_textEdit.cursor = .ok false := by
            rw [ht]
            exact hs
          exact saveHistory_rejected o2 e1 hf1 hs1
        by_cases hm : e.m_currentHistoryIndex + 1 < e.m_maxHistorySize
        · obtain ⟨e1, hrun, hh, hi, ht, hf1, _, _⟩ :=
            saveHistory_append o { e with m_textEdit := { text := t, cursor := c } }
              hf hb1 hlo hlt hm
          refine ⟨e1, hrun, second e1 _ hh (Or.inl ?_) ht hf1⟩
          rw [hi]
          simp only at hlen ⊢
          omega
        · obtain ⟨e1, hrun, hh, hi, ht, hf1, _, _⟩ :=
            saveHistory_evict o { e with m_textEdit := { text := t, cursor := c } }
              hf hb1 hlo hlt (by simp only; omega)
          refine ⟨e1, hrun, second e1 _ hh ?_ ht hf1⟩
          rw [hi, List.length_tail]
          simp only at hlen ⊢
          omega

theorem saveHistory_fault (o : Bool) (e : Editor) (f : Fault)
    (hf : e.m_deactivateHistoryEvent = false)
    (hs : shouldSave e e.m_textEdit.text e.m_textEdit.cursor = .error f) :
    saveHistory o e = .error f := by
  unfold saveHistory
  simp [hf, hs]

theorem saveHistory_diverges (o : Bool) (e : Editor)
    (hf : e.m_deactivateHistoryEvent = false)
    (hs : shouldSave e e.m_textEdit.text e.m_textEdit.cursor = .ok true)
    (hidx : e.m_currentHistoryIndex < -1) :
    saveHistory o e = .error .nonTermination := by
  unfold saveHistory
  simp [hf, hs, removeAfterIndex, removeAfterIndexLoop_diverges _ _ _ hidx]

/-- Whatever the state, a `saveHistory` that returns leaves the log and index
as they were or leaves a log that ends in the candidate after no more entries
than before. -/
theorem saveHistory_appends_at_most_one (o : Bool) (e e1 : Editor)
    (h : saveHistory o e = .ok e1) :
    (e1.m_history = e.m_history ∧ e1.m_currentHistoryIndex = e.m_currentHistoryIndex) ∨
      ∃ front, e1.m_history = front ++ [snapshot e.m_textEdit.text e.m_textEdit.cursor] ∧
        front.length ≤ e.m_history.length := by
  cases hf : e.m_deactivateHistoryEvent with
  | true =>
    rw [saveHistory_deactivated o e hf] at h
    cases h
    exact Or.inl ⟨rfl, rfl⟩
  | false =>
    cases hs : shouldSave e e.m_textEdit.text e.m_textEdit.cursor with
    | error f =>
      rw [saveHistory_fault o e f hf hs] at h
      cases h
    | ok b =>
      cases b with
      | false =>
        rw [saveHistory_rejected o e hf hs] at h
        cases h
        exact Or.inl ⟨rfl, rfl⟩
      | true =>
        by_cases hlo : -1 ≤ e.m_currentHistoryIndex
        · rw [saveHistory_accepted o e hf hs hlo] at h
          cases h
          right
          simp only [writeHistoryFile_history]
          refine ⟨_, rfl, ?_⟩
          split
          · rw [List.length_tail, List.length_take]
            omega
          · rw [List.length_take]
            omega
        · rw [saveHistory_diverges o e hf hs (by omega)] at h
          cases h

theorem record_appends_at_most_one (o : Bool) (t : String) (c : Int) (e e1 : Editor)
    (h : record o t c e = .ok e1) :
    (e1.m_history = e.m_history ∧ e1.m_currentHistoryIndex = e.m_currentHistoryIndex) ∨
      ∃ front, e1.m_history = front ++ [snapshot t c] ∧ front.length ≤ e.m_history.length :=
  saveHistory_appends_at_most_one o { e with m_textEdit := { text := t, cursor := c } } e1 h

theorem executeRedo_at_end (o : Bool) (e : Editor)
    (h : e.m_currentHistoryIndex = (e.m_history.length : Int) - 1) :
    executeRedo o e = .ok e := by
  unfold executeRedo
  have : ¬ (e.m_currentHistoryIndex < (e.m_history.length : Int) - 1) := by omega
  rw [if_neg this]

theorem toInt_value_touch (o : QJsonObject) (key : String) :
    (QJsonObject.value (QJsonObject.touch o key) key).toInt
      = (QJsonObject.value o key).toInt := by
  unfold QJsonObject.touch
  cases h : o.lookup key with
  | some v => rfl
  | none =>
    simp only
    have hins : ∀ (l : QJsonObject), l.lookup key = none →
        (QJsonObject.insert l key QJsonValue.null).lookup key = some QJsonValue.null := by
      intro l
      induction l with
      | nil =>
        intro _
        simp [QJsonObject.insert, List.lookup]
      | cons p rest ih =>
        obtain ⟨k, w⟩ := p
        intro hl
        by_cases hk : k = key
        · subst hk
          simp [List.lookup] at hl
        · have hne : (key == k) = false := by
            simp only [beq_eq_false_iff_ne, ne_eq]
            exact fun h => hk h.symm
          simp only [List.lookup, hne] at hl
          simp only [QJsonObject.insert, if_neg hk, List.lookup, hne]
          exact ih hl
    unfold QJsonObject.value
    rw [hins o h, h]
    rfl

/-- What the end of `loadHistory` leaves: the persisted log and the persisted
index as they are, and the widget changed only when the index lies in the log. -/
theorem loadHistoryFrom_fields (saveData : QJsonObject) (e : Editor) :
    ∃ e1, loadHistoryFrom saveData e = .ok e1 ∧
      e1.m_history = persistedHistory saveData ∧
      e1.m_currentHistoryIndex = persistedIndex saveData ∧
      e1.m_deactivateHistoryEvent = e.m_deactivateHistoryEvent ∧
      e1.m_maxHistorySize = e.m_maxHistorySize ∧
      e1.fileWrites = e.fileWrites ∧
      ((0 ≤ persistedIndex saveData ∧
          persistedIndex saveData < ((persistedHistory saveData).length : Int)) →
        ∃ v, entryAt (persistedHistory saveData) (persistedIndex saveData) = some v ∧
          e1.m_textEdit = { text := entryText v, cursor := entryCursor v }) ∧
      (¬ (0 ≤ persistedIndex saveData ∧
          persistedIndex saveData < ((persistedHistory saveData).length : Int)) →
        e1.m_textEdit = e.m_textEdit) := by
  have hidx : (QJsonObject.value
      (QJsonObject.touch (QJsonObject.value saveData "state").toObject "currentIndex")
      "currentIndex").toInt = persistedIndex saveData := toInt_value_touch _ _
  unfold loadHistoryFrom
  simp only [hidx]
  by_cases hr : 0 ≤ persistedIndex saveData ∧
      persistedIndex saveData < ((persistedHistory saveData).length : Int)
  · obtain ⟨v, hv⟩ :=
      exists_entry (persistedHistory saveData) (persistedIndex saveData) hr.1 hr.2
    have hr2 : persistedIndex saveData ≥ 0 ∧
        persistedIndex saveData
          < (((QJsonObject.value saveData "history").toArray.length : Nat) : Int) := hr
    have href : QJsonArray.ref (QJsonObject.value saveData "history").toArray
        (persistedIndex saveData) = .ok v := ref_of_getElem? _ _ v hr.1 hv
    rw [if_pos hr2]
    simp only [href]
    refine ⟨_, rfl, rfl, rfl, rfl, rfl, rfl, ?_, fun h => absurd hr h⟩
    intro _
    exact ⟨v, (entryAt_nonneg _ _ hr.1).trans hv, rfl⟩
  · have hr2 : ¬ (persistedIndex saveData ≥ 0 ∧
        persistedIndex saveData
          < (((QJsonObject.value saveData "history").toArray.length : Nat) : Int)) := hr
    rw [if_neg hr2]
    exact ⟨_, rfl, rfl, rfl, rfl, rfl, rfl, fun h => absurd h hr, fun _ => rfl⟩

/-- On each failure of the specification `loadHistory` returns the editor as
it was. -/
theorem loadHistory_failure (file : Option QByteArray) (inflate : QByteArray → InflateOutcome)
    (fromJson : QByteArray → Option QJsonValue) (e : Editor)
    (h : LoadFailure file inflate fromJson) :
    loadHistory file inflate fromJson e = .ok e := by
  rcases h with h | h | ⟨bytes, hf, hd⟩ | ⟨bytes, data, hf, hd, hj⟩
  · subst h
    rfl
  · subst h
    rfl
  · subst hf
    simp [loadHistory, hd]
  · subst hf
    unfold loadHistory
    simp only [hd]
    by_cases hem : data.isEmpty = true
    · rw [if_pos hem]
    · rw [if_neg hem]
      rcases hj with hj | ⟨doc, hj, hno⟩ | ⟨members, hj, hm⟩
      · simp only [hj]
      · cases doc with
        | object members => exact absurd rfl (hno members)
        | null => simp only [hj]
        | bool b => simp only [hj]
        | double q => simp only [hj]
        | string s => simp only [hj]
        | array items => simp only [hj]
        | undefined => simp only [hj]
      · simp only [hj]
        rcases hm with hm | hm
        · simp [hm]
        · simp [hm]

/-- On a decoded object with an array member `history`, `loadHistory` is its
end part. -/
theorem loadHistory_decoded (bytes data : QByteArray) (inflate : QByteArray → InflateOutcome)
    (fromJson : QByteArray → Option QJsonValue) (saveData : QJsonObject) (e : Editor)
    (hd : decompressData inflate bytes = .ok data) (hne : data ≠ [])
    (hj : fromJson data = some (QJsonValue.object saveData))
    (hc : QJsonObject.contains saveData "history" = true)
    (ha : (QJsonObject.value saveData "history").isArray = true) :
    loadHistory (some bytes) inflate fromJson e = loadHistoryFrom saveData e := by
  unfold loadHistory
  have hem : ¬ (data.isEmpty = true) := by
    cases data with
    | nil => exact absurd rfl hne
    | cons x xs => simp
  simp only [hd, if_neg hem, hj, hc, ha]
  simp

theorem value_insert_same (o : QJsonObject) (key : String) (v : QJsonValue) :
    QJsonObject.value (QJsonObject.insert o key v) key = v := by
  have hl : (QJsonObject.insert o key v).lookup key = some v := by
    induction o with
    | nil => simp [QJsonObject.insert, List.lookup]
    | cons p rest ih =>
      obtain ⟨k, w⟩ := p
      by_cases hk : k = key
      · simp [QJsonObject.insert, hk, List.lookup]
      · have hne : (key == k) = false := by
          simp only [beq_eq_false_iff_ne, ne_eq]
          exact fun h => hk h.symm
        simp only [QJsonObject.insert, if_neg hk, List.lookup, hne]
        exact ih
  unfold QJsonObject.value
  rw [hl]

theorem saveData_history (e : Editor) :
    QJsonObject.value (saveData e) "history" = QJsonValue.array e.m_history := by
  simp [saveData, QJsonObject.insert, QJsonObject.value, List.lookup]

theorem saveData_state (e : Editor) :
    QJsonObject.value (saveData e) "state" = QJsonValue.object e.m_state :=
  value_insert_same _ _ _

/-- Writing the history file right after `m_state["currentIndex"]` was set to
the index: the document written holds the log and the index of the editor. -/
theorem writeHistoryFile_matches (e0 e : Editor) (hw : e.fileWrites = e0.fileWrites)
    (hs : QJsonObject.value e.m_state "currentIndex"
      = QJsonValue.ofInt e.m_currentHistoryIndex) :
    PersistedMatches e0 (writeHistoryFile true e) := by
  refine ⟨saveData e, ?_, ?_, ?_⟩
  · rw [writeHistoryFile_writes, hw]
    rfl
  · rw [saveData_history, writeHistoryFile_history]
  · rw [saveData_state, writeHistoryFile_index]
    exact hs

/-- Every write `saveHistory` makes holds the log and index it leaves. -/
theorem saveHistory_persists (e e1 : Editor) (h : saveHistory true e = .ok e1) :
    e1.fileWrites = e.fileWrites ∨ PersistedMatches e e1 := by
  cases hf : e.m_deactivateHistoryEvent with
  | true =>
    rw [saveHistory_deactivated true e hf] at h
    cases h
    exact Or.inl rfl
  | false =>
    cases hs : shouldSave e e.m_textEdit.text e.m_textEdit.cursor with
    | error f =>
      rw [saveHistory_fault true e f hf hs] at h
      cases h
    | ok b =>
      cases b with
      | false =>
        rw [saveHistory_rejected true e hf hs] at h
        cases h
        exact Or.inl rfl
      | true =>
        by_cases hlo : -1 ≤ e.m_currentHistoryIndex
        · rw [saveHistory_accepted true e hf hs hlo] at h
          cases h
          right
          exact writeHistoryFile_matches e _ rfl (value_insert_same _ _ _)
        · rw [saveHistory_diverges true e hf hs (by omega)] at h
          cases h

/-- A `restoreState` that returns wrote one document, which holds the log and
the new index; the log is the old one. -/
theorem restoreState_persists (i : Int) (e e1 : Editor)
    (h : restoreState true i e = .ok e1) :
    PersistedMatches e e1 ∧ e1.m_history = e.m_history ∧ e1.m_currentHistoryIndex = i := by
  unfold restoreState at h
  cases hr : QJsonArray.ref e.m_history i with
  | error f =>
    simp only [hr] at h
    cases h
  | ok v =>
    simp only [hr, setText, onTextChanged] at h
    rw [saveHistory_deactivated _ _ rfl] at h
    simp only [Except.ok.injEq] at h
    subst h
    refine ⟨?_, ?_, ?_⟩
    · unfold saveHistoryIndex
      exact writeHistoryFile_matches e _ rfl (value_insert_same _ _ _)
    · simp [saveHistoryIndex, setTextCursor]
    · simp [saveHistoryIndex, setTextCursor]

/-- On a non-empty log with a negative index `record` only changes the widget. -/
theorem record_inert (o : Bool) (t : String) (c : Int) (e : Editor)
    (hne : e.m_history ≠ []) (hneg : e.m_currentHistoryIndex < 0) :
    record o t c e = .ok { e with m_textEdit := { text := t, cursor := c } } := by
  rcases Bool.eq_false_or_eq_true e.m_deactivateHistoryEvent with hf | hf
  · exact saveHistory_deactivated o { e with m_textEdit := { text := t, cursor := c } } hf
  · have hb : shouldSave { e with m_textEdit := { text := t, cursor := c } } t c
        = .ok false := shouldSave_negative _ t c hne hneg
    exact saveHistory_rejected o { e with m_textEdit := { text := t, cursor := c } } hf hb

theorem executeUndo_at_start (o : Bool) (e : Editor) (h : e.m_currentHistoryIndex ≤ 0) :
    executeUndo o e = .ok e := by
  unfold executeUndo
  have : ¬ (e.m_currentHistoryIndex > 0) := by omega
  rw [if_neg this]

theorem run_inert (ops : List (Op × Bool)) (e : Editor)
    (hops : ∀ p ∈ ops, p.1.isRecordOrUndo = true)
    (hne : e.m_history ≠ []) (hneg : e.m_currentHistoryIndex < 0) :
    ∃ e1, run e ops = .ok e1 ∧ e1.m_history = e.m_history ∧
      e1.m_currentHistoryIndex = e.m_currentHistoryIndex ∧
      e1.fileWrites = e.fileWrites := by
  induction ops generalizing e with
  | nil => exact ⟨e, rfl, rfl, rfl, rfl⟩
  | cons p rest ih =>
    obtain ⟨op, o⟩ := p
    have hrest : ∀ q ∈ rest, q.1.isRecordOrUndo = true :=
      fun q hq => hops q (List.mem_cons_of_mem _ hq)
    have hop : op.isRecordOrUndo = true := hops (op, o) (List.mem_cons_self _ _)
    cases op with
    | record t c =>
      obtain ⟨e2, h1, h2, h3, h4⟩ :=
        ih { e with m_textEdit := { text := t, cursor := c } } hrest hne hneg
      refine ⟨e2, ?_, h2, h3, h4⟩
      simp only [run, step, record_inert o t c e hne hneg]
      exact h1
    | undo =>
      obtain ⟨e2, h1, h2, h3, h4⟩ := ih e hrest hne hneg
      refine ⟨e2, ?_, h2, h3, h4⟩
      simp only [run, step, executeUndo_at_start o e (by omega)]
      exact h1
    | redo => simp [Op.isRecordOrUndo] at hop
    | clear => simp [Op.isRecordOrUndo] at hop

/-- The document `saveHistory` and `saveHistoryIndex` write, read back by the
end of `loadHistory`, carries the log and, once `m_state["currentIndex"]` was
set to an `int` index, that index. -/
theorem saveData_reloads (e : Editor) (hi : isInt e.m_currentHistoryIndex)
    (hs : QJsonObject.value e.m_state "currentIndex"
      = QJsonValue.ofInt e.m_currentHistoryIndex) :
    persistedHistory (saveData e) = e.m_history ∧
    persistedIndex (saveData e) = e.m_currentHistoryIndex := by
  constructor
  · unfold persistedHistory
    rw [saveData_history]
    rfl
  · unfold persistedIndex
    rw [saveData_state]
    simp only [QJsonValue.toObject]
    rw [hs]
    exact toInt_ofInt _ hi

/-- Whatever the state, a `saveHistory` that returns leaves the log and index
as they were, or leaves the entries up to the index without at most one entry
at the front, followed by the candidate. -/
theorem saveHistory_drops_at_most_one (o : Bool) (e e1 : Editor)
    (h : saveHistory o e = .ok e1) :
    (e1.m_history = e.m_history ∧ e1.m_currentHistoryIndex = e.m_currentHistoryIndex) ∨
      ∃ k, k ≤ 1 ∧
        e1.m_history = (e.m_history.take (e.m_currentHistoryIndex + 1).toNat).drop k
          ++ [snapshot e.m_textEdit.text e.m_textEdit.cursor] := by
  cases hf : e.m_deactivateHistoryEvent with
  | true =>
    rw [saveHistory_deactivated o e hf] at h
    cases h
    exact Or.inl ⟨rfl, rfl⟩
  | false =>
    cases hs : shouldSave e e.m_textEdit.text e.m_textEdit.cursor with
    | error f =>
      rw [saveHistory_fault o e f hf hs] at h
      cases h
    | ok b =>
      cases b with
      | false =>
        rw [saveHistory_rejected o e hf hs] at h
        cases h
        exact Or.inl ⟨rfl, rfl⟩
      | true =>
        by_cases hlo : -1 ≤ e.m_currentHistoryIndex
        · rw [saveHistory_accepted o e hf hs hlo] at h
          cases h
          right
          simp only [writeHistoryFile_history]
          split
          · exact ⟨1, Nat.le_refl 1, by simp⟩
          · exact ⟨0, Nat.zero_le 1, by simp⟩
        · rw [saveHistory_diverges o e hf hs (by omega)] at h
          cases h

/-- The entry `saveHistory` appends, written out: an object whose member
`text` is the string and whose member `cursor` is the number. -/
theorem snapshot_eq (t : String) (c : Int) :
    snapshot t c
      = QJsonValue.object [("text", QJsonValue.string t), ("cursor", QJsonValue.double (c : ℚ))] := by
  simp [snapshot, currentState, QJsonObject.insert, QJsonValue.ofInt]

/-! ## The claims -/

/-- C1 (index invariant).  From a freshly constructed store (empty log, index
-1, history events active) with capacity at least 1, every finite sequence of
record, undo, redo and clear operations returns, and in the state it reaches a
non-empty log has `0 <= currentIndex < length(log)` and an empty log has
`currentIndex = -1`. -/
theorem index_invariant_reachable (e0 : Editor) (ops : List (Op × Bool))
    (hlog : e0.m_history = []) (hidx : e0.m_currentHistoryIndex = -1)
    (hf : e0.m_deactivateHistoryEvent = false) (hmax : 1 ≤ e0.m_maxHistorySize) :
    ∃ e, run e0 ops = .ok e ∧ IndexInvariant e := by
  have hinv : IndexInvariant e0 := ⟨fun _ => hidx, fun h => absurd hlog h⟩
  obtain ⟨e, h1, h2, _⟩ := run_preserves ops e0 hinv hf hmax
  exact ⟨e, h1, h2⟩

/-- C1 at a concrete input: capacity 2 and the operations record, record,
undo, clear, redo, record. -/
theorem index_invariant_reachable_witness :
    (freshEditor 2).m_history = [] ∧ (freshEditor 2).m_currentHistoryIndex = -1 ∧
    (freshEditor 2).m_deactivateHistoryEvent = false ∧
    1 ≤ (freshEditor 2).m_maxHistorySize ∧
    ∃ e, run (freshEditor 2)
        [(Op.record "a" 1, true), (Op.record "ab" 2, true), (Op.undo, false),
         (Op.clear, true), (Op.redo, true), (Op.record "abc" 3, false)] = .ok e ∧
      IndexInvariant e :=
  ⟨rfl, rfl, rfl, by decide,
    index_invariant_reachable (freshEditor 2) _ rfl rfl rfl (by decide)⟩

/-- C2 (capacity invariant).  For every capacity `N >= 1`, from the empty
store every finite sequence of record calls returns and leaves a log of
length at most `N`. -/
theorem capacity_invariant_records (N : Int) (e0 : Editor)
    (calls : List ((String × Int) × Bool)) (hN : 1 ≤ N)
    (hmax : e0.m_maxHistorySize = N)
    (hlog : e0.m_history = []) (hidx : e0.m_currentHistoryIndex = -1)
    (hf : e0.m_deactivateHistoryEvent = false) :
    ∃ e, run e0 (recordOps calls) = .ok e ∧ (e.m_history.length : Int) ≤ N := by
  have hinv : IndexInvariant e0 := ⟨fun _ => hidx, fun h => absurd hlog h⟩
  have hlen : (e0.m_history.length : Int) ≤ e0.m_maxHistorySize := by
    rw [hlog]
    simp only [List.length_nil]
    omega
  obtain ⟨e, h1, _, _, h4, h5⟩ := run_records_preserves calls e0 hinv hf (by omega) hlen
  exact ⟨e, h1, by omega⟩

/-- C2 at a concrete input: capacity 2 and three record calls. -/
theorem capacity_invariant_records_witness :
    (1 : Int) ≤ 2 ∧ (freshEditor 2).m_maxHistorySize = 2 ∧
    (freshEditor 2).m_history = [] ∧ (freshEditor 2).m_currentHistoryIndex = -1 ∧
    (freshEditor 2).m_deactivateHistoryEvent = false ∧
    ∃ e, run (freshEditor 2)
        (recordOps [(("a", 1), true), (("ab", 2), false), (("abc", 3), true)]) = .ok e ∧
      (e.m_history.length : Int) ≤ 2 :=
  ⟨by decide, rfl, rfl, rfl, rfl,
    capacity_invariant_records 2 (freshEditor 2) _ (by decide) rfl rfl rfl rfl⟩

/-- C3 (record decision).  In a state that satisfies the index invariant, with
history events active and a cursor that is a C++ `int`, `record` returns and
performs a write exactly when the log is empty or the entry at the current
index differs from the candidate in text or cursor: then the store changes,
the candidate becomes the last entry and the history file is written when it
opens; otherwise log, index and file stay as they are.  A candidate with the
same text and another cursor is recorded. -/
theorem record_decision (o : Bool) (t : String) (c : Int) (e : Editor)
    (hinv : IndexInvariant e) (hf : e.m_deactivateHistoryEvent = false) (hc : isInt c) :
    ∃ e1, record o t c e = .ok e1 ∧
      ((e1.m_history ≠ e.m_history ∨
          e1.m_currentHistoryIndex ≠ e.m_currentHistoryIndex) ↔ Accepted e t c) ∧
      (Accepted e t c →
        e1.m_history.getLast? = some (snapshot t c) ∧
        e1.fileWrites =
          (if o then QJsonValue.object (saveData e1) :: e.fileWrites else e.fileWrites)) ∧
      (¬ Accepted e t c →
        e1 = { e with m_textEdit := { text := t, cursor := c } }) ∧
      (∀ v, entryAt e.m_history e.m_currentHistoryIndex = some v →
        entryText v = t → entryCursor v ≠ c →
        e1.m_history.getLast? = some (snapshot t c)) := by
  have key := record_outcome o t c e hinv hf hc
  obtain ⟨e1, hrun, hacc, hrej⟩ := key
  refine ⟨e1, hrun, ?_, ?_, hrej, ?_⟩
  · constructor
    · intro hch
      by_contra hna
      have := hrej hna
      rw [this] at hch
      rcases hch with h | h
      · exact h rfl
      · exact h rfl
    · intro ha
      exact (hacc ha).1
  · intro ha
    exact (hacc ha).2
  · intro v hv ht hcur
    have ha : Accepted e t c := Or.inr ⟨v, hv, Or.inr hcur⟩
    exact (hacc ha).2.1

/-- C3 at a concrete input: the store holding `("a", 1)`, the candidate
`("a", 2)` with the same text and another cursor. -/
theorem record_decision_witness :
    IndexInvariant oneEntryEditor ∧ oneEntryEditor.m_deactivateHistoryEvent = false ∧
    isInt 2 ∧
    ∃ e1, record true "a" 2 oneEntryEditor = .ok e1 ∧
      ((e1.m_history ≠ oneEntryEditor.m_history ∨
          e1.m_currentHistoryIndex ≠ oneEntryEditor.m_currentHistoryIndex) ↔
        Accepted oneEntryEditor "a" 2) ∧
      (Accepted oneEntryEditor "a" 2 →
        e1.m_history.getLast? = some (snapshot "a" 2) ∧
        e1.fileWrites =
          (if true then QJsonValue.object (saveData e1) :: oneEntryEditor.fileWrites
            else oneEntryEditor.fileWrites)) ∧
      (¬ Accepted oneEntryEditor "a" 2 →
        e1 = { oneEntryEditor with m_textEdit := { text := "a", cursor := 2 } }) ∧
      (∀ v, entryAt oneEntryEditor.m_history oneEntryEditor.m_currentHistoryIndex = some v →
        entryText v = "a" → entryCursor v ≠ 2 →
        e1.m_history.getLast? = some (snapshot "a" 2)) :=
  ⟨indexInvariant_of_bounds _ (by decide) (by decide), rfl, by decide,
    record_decision true "a" 2 oneEntryEditor
      (indexInvariant_of_bounds _ (by decide) (by decide)) rfl (by decide)⟩

/-- C4 (idempotent record), amended.  In every state whose index lies below
the log length and is -1 when the log is empty (so in every state that
satisfies the index invariant), for every text and every `int` cursor, the
first `record` returns and a second `record` of the same pair returns exactly
the state the first one produced: it is a no-op, so at most one snapshot is
appended. -/
theorem record_idempotent (o o2 : Bool) (t : String) (c : Int) (e : Editor)
    (hlt : e.m_currentHistoryIndex < (e.m_history.length : Int))
    (hnil : e.m_history = [] → e.m_currentHistoryIndex = -1) (hc : isInt c) :
    ∃ e1, record o t c e = .ok e1 ∧ record o2 t c e1 = .ok e1 ∧
      ((e1.m_history = e.m_history ∧ e1.m_currentHistoryIndex = e.m_currentHistoryIndex) ∨
        ∃ front, e1.m_history = front ++ [snapshot t c] ∧
          front.length ≤ e.m_history.length) := by
  obtain ⟨e1, h1, h2⟩ := record_twice o o2 t c e hlt hnil hc
  refine ⟨e1, h1, h2, ?_⟩
  exact record_appends_at_most_one o t c e e1 h1

/-- C4 at a concrete input: the store holding `("a", 1)` and the pair `("ab", 2)`. -/
theorem record_idempotent_witness :
    oneEntryEditor.m_currentHistoryIndex < (oneEntryEditor.m_history.length : Int) ∧
    (oneEntryEditor.m_history = [] → oneEntryEditor.m_currentHistoryIndex = -1) ∧
    isInt 2 ∧
    ∃ e1, record true "ab" 2 oneEntryEditor = .ok e1 ∧ record false "ab" 2 e1 = .ok e1 ∧
      ((e1.m_history = oneEntryEditor.m_history ∧
          e1.m_currentHistoryIndex = oneEntryEditor.m_currentHistoryIndex) ∨
        ∃ front, e1.m_history = front ++ [snapshot "ab" 2] ∧
          front.length ≤ oneEntryEditor.m_history.length) :=
  ⟨by decide, fun h => by simp [oneEntryEditor] at h, by decide,
    record_idempotent true false "ab" 2 oneEntryEditor (by decide)
      (fun h => by simp [oneEntryEditor] at h) (by decide)⟩

/-- C4 as stated fails: with an empty log and index 3 the first `record`
appends a snapshot and leaves index 4, and no second `record` of the same
pair returns a state with that log and index. -/
theorem record_not_idempotent_dangling_index :
    loadHistoryFrom (envelope [] 3) (freshEditor 3) = .ok danglingIndexEditor ∧
    danglingIndexEditor.m_history = [] ∧ danglingIndexEditor.m_currentHistoryIndex = 3 ∧
    (∃ x, record true "a" 1 danglingIndexEditor = .ok x ∧
      x.m_history = [snapshot "a" 1] ∧ x.m_currentHistoryIndex = 4 ∧
      record true "a" 1 x = .error .indexOutOfRange) ∧
    ¬ ∃ e1 e2, record true "a" 1 danglingIndexEditor = .ok e1 ∧
      record true "a" 1 e1 = .ok e2 ∧
      e2.m_history = e1.m_history ∧ e2.m_currentHistoryIndex = e1.m_currentHistoryIndex := by
  refine ⟨rfl, rfl, rfl, ⟨_, rfl, rfl, rfl, rfl⟩, ?_⟩
  rintro ⟨e1, e2, h1, h2, _, _⟩
  have hfirst : ∃ x, record true "a" 1 danglingIndexEditor = .ok x ∧
      record true "a" 1 x = .error .indexOutOfRange := ⟨_, rfl, rfl⟩
  obtain ⟨x, hx1, hx2⟩ := hfirst
  rw [h1] at hx1
  cases hx1
  rw [h2] at hx2
  cases hx2

/-- C5 (redo-tail truncation).  In a state that satisfies the index invariant
with `currentIndex + 1 < maxSize` and history events active, an accepted
`record` of the text `t` and cursor `c` returns the log made of the first
`currentIndex + 1` old entries followed by one new entry `s`: the object with
the members `text = t` and `cursor = c`, which restores the text `t` and (the
cursor being a C++ `int`) the cursor `c`.  The index grows by one to the last
position, and a redo right after it changes nothing. -/
theorem record_truncates_redo_tail (o o2 : Bool) (t : String) (c : Int) (e : Editor)
    (hinv : IndexInvariant e) (hf : e.m_deactivateHistoryEvent = false)
    (hm : e.m_currentHistoryIndex + 1 < e.m_maxHistorySize) (hacc : Accepted e t c) :
    ∃ e1 s, record o t c e = .ok e1 ∧
      s = QJsonValue.object
        [("text", QJsonValue.string t), ("cursor", QJsonValue.double (c : ℚ))] ∧
      entryText s = t ∧ (isInt c → entryCursor s = c) ∧
      e1.m_history = e.m_history.take (e.m_currentHistoryIndex + 1).toNat ++ [s] ∧
      e1.m_currentHistoryIndex = e.m_currentHistoryIndex + 1 ∧
      e1.m_currentHistoryIndex = (e1.m_history.length : Int) - 1 ∧
      entryAt e1.m_history e1.m_currentHistoryIndex = some s ∧
      executeRedo o2 e1 = .ok e1 := by
  obtain ⟨hlo, hhi⟩ := indexInvariant_bounds e hinv
  have hb := (shouldSave_true_iff e t c hinv).1.mpr hacc
  obtain ⟨e1, hrun, hh, hi, _⟩ :=
    saveHistory_append o { e with m_textEdit := { text := t, cursor := c } } hf hb hlo hhi hm
  have hlen := length_take_index e.m_history e.m_currentHistoryIndex hlo hhi
  have hi1 : e1.m_currentHistoryIndex = e.m_currentHistoryIndex + 1 := hi
  have hh1 : e1.m_history
      = e.m_history.take (e.m_currentHistoryIndex + 1).toNat ++ [snapshot t c] := hh
  have hl : e1.m_currentHistoryIndex = (e1.m_history.length : Int) - 1 := by
    rw [hh1, hi1, List.length_append, List.length_singleton]
    push_cast
    omega
  have hat : entryAt e1.m_history e1.m_currentHistoryIndex = some (snapshot t c) := by
    rw [entryAt_nonneg _ _ (by omega), hh1]
    have hn : (e1.m_currentHistoryIndex).toNat
        = (e.m_history.take (e.m_currentHistoryIndex + 1).toNat).length := by
      omega
    rw [hn]
    simp
  refine ⟨e1, snapshot t c, hrun, snapshot_eq t c, entryText_snapshot t c,
    entryCursor_snapshot t c, hh, hi, hl, hat, executeRedo_at_end o2 e1 hl⟩

/-- C5 at the scenario of the specification: after `record(a)`, `record(b)`,
`undo`, the call `record(c)` drops `b`, leaves `a` followed by the entry with
text `c` and cursor 1, and a redo changes nothing. -/
theorem record_truncates_redo_tail_witness :
    run (freshEditor 3)
      [(Op.record "a" 1, true), (Op.record "b" 1, true), (Op.undo, true)]
      = .ok afterUndoEditor ∧
    IndexInvariant afterUndoEditor ∧ afterUndoEditor.m_deactivateHistoryEvent = false ∧
    afterUndoEditor.m_currentHistoryIndex + 1 < afterUndoEditor.m_maxHistorySize ∧
    Accepted afterUndoEditor "c" 1 ∧
    ∃ e1 s, record true "c" 1 afterUndoEditor = .ok e1 ∧
      s = QJsonValue.object
        [("text", QJsonValue.string "c"), ("cursor", QJsonValue.double ((1 : Int) : ℚ))] ∧
      entryText s = "c" ∧ entryCursor s = 1 ∧
      e1.m_history =
        afterUndoEditor.m_history.take (afterUndoEditor.m_currentHistoryIndex + 1).toNat
          ++ [s] ∧
      e1.m_currentHistoryIndex = afterUndoEditor.m_currentHistoryIndex + 1 ∧
      e1.m_currentHistoryIndex = (e1.m_history.length : Int) - 1 ∧
      entryAt e1.m_history e1.m_currentHistoryIndex = some s ∧
      executeRedo true e1 = .ok e1 := by
  have hinv : IndexInvariant afterUndoEditor :=
    indexInvariant_of_bounds _ (by decide) (by decide)
  have hacc : Accepted afterUndoEditor "c" 1 :=
    Or.inr ⟨snapshot "a" 1, rfl, Or.inl (by decide)⟩
  refine ⟨rfl, hinv, rfl, by decide, hacc, ?_⟩
  obtain ⟨e1, s, h1, h2, h3, h4, h5, h6, h7, h8, h9⟩ :=
    record_truncates_redo_tail true true "c" 1 afterUndoEditor hinv rfl (by decide) hacc
  exact ⟨e1, s, h1, h2, h3, h4 (by decide), h5, h6, h7, h8, h9⟩

/-- C6 (oldest-first eviction).  With capacity `N >= 1`, in a state that
satisfies the index invariant whose log is full with the index at the last
entry, an accepted `record` of the text `t` and cursor `c` returns the old log
without its entry 0 followed by one new entry `s`: the object with the members
`text = t` and `cursor = c`, which restores the text `t` and (the cursor being
a C++ `int`) the cursor `c`.  The length is still `N`, the index still
`N - 1`, and `s` is the entry at the index. -/
theorem record_evicts_oldest (o : Bool) (t : String) (c : Int) (N : Int) (e : Editor)
    (hN : 1 ≤ N) (hmax : e.m_maxHistorySize = N)
    (hinv : IndexInvariant e) (hf : e.m_deactivateHistoryEvent = false)
    (hfull : (e.m_history.length : Int) = N) (hlast : e.m_currentHistoryIndex = N - 1)
    (hacc : Accepted e t c) :
    ∃ e1 s, record o t c e = .ok e1 ∧
      s = QJsonValue.object
        [("text", QJsonValue.string t), ("cursor", QJsonValue.double (c : ℚ))] ∧
      entryText s = t ∧ (isInt c → entryCursor s = c) ∧
      e1.m_history = e.m_history.tail ++ [s] ∧
      (e1.m_history.length : Int) = N ∧
      e1.m_currentHistoryIndex = N - 1 ∧
      entryAt e1.m_history e1.m_currentHistoryIndex = some s := by
  obtain ⟨hlo, hhi⟩ := indexInvariant_bounds e hinv
  have hb := (shouldSave_true_iff e t c hinv).1.mpr hacc
  obtain ⟨e1, hrun, hh, hi, _⟩ :=
    saveHistory_evict o { e with m_textEdit := { text := t, cursor := c } } hf hb hlo hhi
      (by simp only; omega)
  have htake : e.m_history.take (e.m_currentHistoryIndex + 1).toNat = e.m_history := by
    apply List.take_of_length_le
    omega
  simp only [htake] at hh
  have hl : (e1.m_history.length : Int) = N := by
    rw [hh, List.length_append, List.length_singleton, List.length_tail]
    push_cast
    omega
  have hi1 : e1.m_currentHistoryIndex = N - 1 := by
    rw [hi]
    exact hlast
  refine ⟨e1, snapshot t c, hrun, snapshot_eq t c, entryText_snapshot t c,
    entryCursor_snapshot t c, hh, hl, hi1, ?_⟩
  rw [entryAt_nonneg _ _ (by omega), hh]
  have : (e1.m_currentHistoryIndex).toNat = e.m_history.tail.length := by
    rw [List.length_tail]
    omega
  rw [this]
  simp

/-- C6 at a concrete input: the full store of capacity 2, which holds
`("a", 1)` and `("ab", 2)`, and the candidate `("abc", 3)`. -/
theorem record_evicts_oldest_witness :
    (1 : Int) ≤ 2 ∧ fullEditor.m_maxHistorySize = 2 ∧
    IndexInvariant fullEditor ∧ fullEditor.m_deactivateHistoryEvent = false ∧
    (fullEditor.m_history.length : Int) = 2 ∧ fullEditor.m_currentHistoryIndex = 2 - 1 ∧
    Accepted fullEditor "abc" 3 ∧
    ∃ e1 s, record true "abc" 3 fullEditor = .ok e1 ∧
      s = QJsonValue.object
        [("text", QJsonValue.string "abc"), ("cursor", QJsonValue.double ((3 : Int) : ℚ))] ∧
      entryText s = "abc" ∧ entryCursor s = 3 ∧
      e1.m_history = fullEditor.m_history.tail ++ [s] ∧
      (e1.m_history.length : Int) = 2 ∧
      e1.m_currentHistoryIndex = 2 - 1 ∧
      entryAt e1.m_history e1.m_currentHistoryIndex = some s := by
  have hinv : IndexInvariant fullEditor :=
    indexInvariant_of_bounds _ (by decide) (by decide)
  have hacc : Accepted fullEditor "abc" 3 :=
    Or.inr ⟨snapshot "ab" 2, rfl, Or.inl (by decide)⟩
  refine ⟨by decide, rfl, hinv, rfl, rfl, rfl, hacc, ?_⟩
  obtain ⟨e1, s, h1, h2, h3, h4, h5, h6, h7, h8⟩ :=
    record_evicts_oldest true "abc" 3 2 fullEditor (by decide) rfl hinv rfl rfl rfl hacc
  exact ⟨e1, s, h1, h2, h3, h4 (by decide), h5, h6, h7, h8⟩

/-- C7 (undo), amended.  In every state with `currentIndex <= 0`, undo returns
the state unchanged (log, index and widget).  In every state with
`0 < currentIndex <= length(log)`, undo returns, decrements the index by one,
shows the text and cursor of the entry stored at the new index and keeps the
log. -/
theorem undo_spec (o : Bool) (e : Editor) :
    (e.m_currentHistoryIndex ≤ 0 → executeUndo o e = .ok e) ∧
    (0 < e.m_currentHistoryIndex → e.m_currentHistoryIndex ≤ (e.m_history.length : Int) →
      ∃ v e1, entryAt e.m_history (e.m_currentHistoryIndex - 1) = some v ∧
        executeUndo o e = .ok e1 ∧
        e1.m_currentHistoryIndex = e.m_currentHistoryIndex - 1 ∧
        e1.m_history = e.m_history ∧
        e1.m_textEdit = { text := entryText v, cursor := entryCursor v }) := by
  constructor
  · intro h
    unfold executeUndo
    have : ¬ (e.m_currentHistoryIndex > 0) := by omega
    rw [if_neg this]
  · intro hpos hle
    obtain ⟨v, hv⟩ := exists_entry e.m_history (e.m_currentHistoryIndex - 1)
      (by omega) (by omega)
    obtain ⟨e1, hrun, hh, hi, ht, _⟩ :=
      restoreState_entry o (e.m_currentHistoryIndex - 1) e v (by omega) hv
    refine ⟨v, e1, (entryAt_nonneg _ _ (by omega)).trans hv, ?_, hi, hh, ht⟩
    unfold executeUndo
    rw [if_pos hpos]
    exact hrun

/-- C7 at the scenario of the specification: `record("a",1)`,
`record("ab",2)`, `record("ab",2)` give a two-entry log; the first undo moves
the index from 1 to 0 and shows `("a", 1)`, the second undo changes nothing. -/
theorem undo_spec_witness :
    run (freshEditor 3)
      [(Op.record "a" 1, true), (Op.record "ab" 2, true), (Op.record "ab" 2, true)]
      = .ok twoEntryEditor ∧
    twoEntryEditor.m_history = [snapshot "a" 1, snapshot "ab" 2] ∧
    twoEntryEditor.m_currentHistoryIndex = 1 ∧
    (0 : Int) < twoEntryEditor.m_currentHistoryIndex ∧
    twoEntryEditor.m_currentHistoryIndex ≤ (twoEntryEditor.m_history.length : Int) ∧
    ∃ e1, executeUndo true twoEntryEditor = .ok e1 ∧
      e1.m_currentHistoryIndex = 0 ∧
      e1.m_history = [snapshot "a" 1, snapshot "ab" 2] ∧
      e1.m_textEdit = { text := "a", cursor := 1 } ∧
      executeUndo true e1 = .ok e1 := by
  refine ⟨rfl, rfl, rfl, by decide, by decide, ?_⟩
  obtain ⟨v, e1, hv, hrun, hi, hh, ht⟩ :=
    (undo_spec true twoEntryEditor).2 (by decide) (by decide)
  have hv1 : v = snapshot "a" 1 := by
    have : entryAt twoEntryEditor.m_history (twoEntryEditor.m_currentHistoryIndex - 1)
        = some (snapshot "a" 1) := rfl
    rw [this] at hv
    cases hv
    rfl
  subst hv1
  have hi0 : e1.m_currentHistoryIndex = 0 := by
    rw [hi]
    rfl
  refine ⟨e1, hrun, hi0, hh, ?_, (undo_spec true e1).1 (by omega)⟩
  rw [ht, entryText_snapshot, entryCursor_snapshot _ _ (by decide)]

/-- C7 as stated fails: with an empty log and index 3 the index is positive,
but no entry is stored at index 2 and undo reads outside the array. -/
theorem undo_dangling_index_no_entry :
    loadHistoryFrom (envelope [] 3) (freshEditor 3) = .ok danglingIndexEditor ∧
    danglingIndexEditor.m_history = [] ∧
    0 < danglingIndexEditor.m_currentHistoryIndex ∧
    executeUndo true danglingIndexEditor = .error .indexOutOfRange ∧
    ¬ ∃ v e1,
      entryAt danglingIndexEditor.m_history (danglingIndexEditor.m_currentHistoryIndex - 1)
        = some v ∧
      executeUndo true danglingIndexEditor = .ok e1 ∧
      e1.m_currentHistoryIndex = danglingIndexEditor.m_currentHistoryIndex - 1 ∧
      e1.m_history = danglingIndexEditor.m_history ∧
      e1.m_textEdit = { text := entryText v, cursor := entryCursor v } := by
  refine ⟨rfl, rfl, by decide, rfl, ?_⟩
  rintro ⟨v, e1, hv, _⟩
  have : entryAt danglingIndexEditor.m_history
      (danglingIndexEditor.m_currentHistoryIndex - 1) = none := rfl
  rw [this] at hv
  cases hv

/-- C8 (redo), amended.  In every state where `currentIndex < length(log) - 1`
fails, redo returns the state unchanged (log, index and widget).  In every
state with `-1 <= currentIndex < length(log) - 1`, redo returns, increments
the index by one, shows the text and cursor of the entry stored at the new
index and keeps the log. -/
theorem redo_spec (o : Bool) (e : Editor) :
    (¬ e.m_currentHistoryIndex < (e.m_history.length : Int) - 1 → executeRedo o e = .ok e) ∧
    (e.m_currentHistoryIndex < (e.m_history.length : Int) - 1 → -1 ≤ e.m_currentHistoryIndex →
      ∃ v e1, entryAt e.m_history (e.m_currentHistoryIndex + 1) = some v ∧
        executeRedo o e = .ok e1 ∧
        e1.m_currentHistoryIndex = e.m_currentHistoryIndex + 1 ∧
        e1.m_history = e.m_history ∧
        e1.m_textEdit = { text := entryText v, cursor := entryCursor v }) := by
  constructor
  · intro h
    unfold executeRedo
    rw [if_neg h]
  · intro hlt hlo
    obtain ⟨v, hv⟩ := exists_entry e.m_history (e.m_currentHistoryIndex + 1)
      (by omega) (by omega)
    obtain ⟨e1, hrun, hh, hi, ht, _⟩ :=
      restoreState_entry o (e.m_currentHistoryIndex + 1) e v (by omega) hv
    refine ⟨v, e1, (entryAt_nonneg _ _ (by omega)).trans hv, ?_, hi, hh, ht⟩
    unfold executeRedo
    rw [if_pos hlt]
    exact hrun

/-- C8 at a concrete input: after `record(a)`, `record(b)`, `undo` the index
is 0 in a two-entry log; redo moves it to 1 and shows `("b", 1)`, and a second
redo changes nothing. -/
theorem redo_spec_witness :
    afterUndoEditor.m_currentHistoryIndex < (afterUndoEditor.m_history.length : Int) - 1 ∧
    (-1 : Int) ≤ afterUndoEditor.m_currentHistoryIndex ∧
    ∃ e1, executeRedo true afterUndoEditor = .ok e1 ∧
      e1.m_currentHistoryIndex = 1 ∧
      e1.m_history = [snapshot "a" 1, snapshot "b" 1] ∧
      e1.m_textEdit = { text := "b", cursor := 1 } ∧
      executeRedo true e1 = .ok e1 := by
  refine ⟨by decide, by decide, ?_⟩
  obtain ⟨v, e1, hv, hrun, hi, hh, ht⟩ :=
    (redo_spec true afterUndoEditor).2 (by decide) (by decide)
  have hv1 : v = snapshot "b" 1 := by
    have : entryAt afterUndoEditor.m_history (afterUndoEditor.m_currentHistoryIndex + 1)
        = some (snapshot "b" 1) := rfl
    rw [this] at hv
    cases hv
    rfl
  subst hv1
  have hi1 : e1.m_currentHistoryIndex = 1 := by
    rw [hi]
    rfl
  have hh1 : e1.m_history = [snapshot "a" 1, snapshot "b" 1] := by
    rw [hh]
    rfl
  refine ⟨e1, hrun, hi1, hh1, ?_, (redo_spec true e1).1 ?_⟩
  · rw [ht, entryText_snapshot, entryCursor_snapshot _ _ (by decide)]
  · rw [hi1, hh1]
    decide

/-- C8 as stated fails: with the log `[("a", 1)]` and index -3 the test
`currentIndex < length(log) - 1` holds, but no entry is stored at index -2
and redo reads outside the array. -/
theorem redo_negative_index_no_entry :
    loadHistoryFrom (envelope [snapshot "a" 1] (-3)) (freshEditor 3)
      = .ok negativeIndexEditor ∧
    negativeIndexEditor.m_history = [snapshot "a" 1] ∧
    negativeIndexEditor.m_currentHistoryIndex = -3 ∧
    negativeIndexEditor.m_currentHistoryIndex
      < (negativeIndexEditor.m_history.length : Int) - 1 ∧
    executeRedo true negativeIndexEditor = .error .indexOutOfRange ∧
    ¬ ∃ v e1,
      entryAt negativeIndexEditor.m_history (negativeIndexEditor.m_currentHistoryIndex + 1)
        = some v ∧
      executeRedo true negativeIndexEditor = .ok e1 ∧
      e1.m_currentHistoryIndex = negativeIndexEditor.m_currentHistoryIndex + 1 ∧
      e1.m_history = negativeIndexEditor.m_history ∧
      e1.m_textEdit = { text := entryText v, cursor := entryCursor v } := by
  refine ⟨rfl, rfl, rfl, by decide, rfl, ?_⟩
  rintro ⟨v, e1, hv, _⟩
  have : entryAt negativeIndexEditor.m_history
      (negativeIndexEditor.m_currentHistoryIndex + 1) = none := rfl
  rw [this] at hv
  cases hv

/-- C9 (undo keeps the redo tail).  In a state that satisfies the index
invariant with `currentIndex > 0`, undo followed by redo returns and gives
back the original log and index, the redo showing the entry that was current
before the undo.  The `setText` inside undo does run `onTextChanged`, and
with `m_deactivateHistoryEvent` set that call leaves log and index alone
whatever text is shown. -/
theorem undo_then_redo_restores (o o2 : Bool) (e : Editor)
    (hinv : IndexInvariant e) (hpos : 0 < e.m_currentHistoryIndex) :
    (∃ v e1 e2, entryAt e.m_history e.m_currentHistoryIndex = some v ∧
      executeUndo o e = .ok e1 ∧ executeRedo o2 e1 = .ok e2 ∧
      e1.m_history = e.m_history ∧
      e2.m_history = e.m_history ∧
      e2.m_currentHistoryIndex = e.m_currentHistoryIndex ∧
      e2.m_textEdit = { text := entryText v, cursor := entryCursor v }) ∧
    (∀ t : String, ∃ e3,
      setText o t { e with m_deactivateHistoryEvent := true,
                           m_currentHistoryIndex := e.m_currentHistoryIndex - 1 } = .ok e3 ∧
      e3.m_history = e.m_history ∧
      e3.m_currentHistoryIndex = e.m_currentHistoryIndex - 1 ∧
      e3.fileWrites = e.fileWrites) := by
  obtain ⟨hlo, hhi⟩ := indexInvariant_bounds e hinv
  constructor
  · obtain ⟨w, hw⟩ := exists_entry e.m_history (e.m_currentHistoryIndex - 1)
      (by omega) (by omega)
    obtain ⟨e1, hrun1, hh1, hi1, _, _, _, _⟩ :=
      restoreState_entry o (e.m_currentHistoryIndex - 1) e w (by omega) hw
    obtain ⟨v, hv⟩ := exists_entry e.m_history e.m_currentHistoryIndex (by omega) hhi
    have hv1 : e1.m_history[(e1.m_currentHistoryIndex + 1).toNat]? = some v := by
      rw [hh1, hi1]
      have : e.m_currentHistoryIndex - 1 + 1 = e.m_currentHistoryIndex := by omega
      rw [this]
      exact hv
    obtain ⟨e2, hrun2, hh2, hi2, ht2, _⟩ :=
      restoreState_entry o2 (e1.m_currentHistoryIndex + 1) e1 v (by omega) hv1
    refine ⟨v, e1, e2, (entryAt_nonneg _ _ (by omega)).trans hv, ?_, ?_, hh1, ?_, ?_, ht2⟩
    · unfold executeUndo
      rw [if_pos hpos]
      exact hrun1
    · unfold executeRedo
      have : e1.m_currentHistoryIndex < (e1.m_history.length : Int) - 1 := by
        rw [hh1, hi1]
        omega
      rw [if_pos this]
      exact hrun2
    · rw [hh2, hh1]
    · rw [hi2, hi1]
      omega
  · intro t
    have hrun : setText o t { e with m_deactivateHistoryEvent := true,
                                     m_currentHistoryIndex := e.m_currentHistoryIndex - 1 }
        = .ok { e with m_deactivateHistoryEvent := true,
                       m_currentHistoryIndex := e.m_currentHistoryIndex - 1,
                       m_textEdit := { text := t, cursor := 0 } } :=
      saveHistory_deactivated o
        { e with m_deactivateHistoryEvent := true,
                 m_currentHistoryIndex := e.m_currentHistoryIndex - 1,
                 m_textEdit := { text := t, cursor := 0 } } rfl
    exact ⟨_, hrun, rfl, rfl, rfl⟩

/-- C9 at a concrete input: the two-entry store with index 1. -/
theorem undo_then_redo_restores_witness :
    IndexInvariant twoEntryEditor ∧ 0 < twoEntryEditor.m_currentHistoryIndex ∧
    (∃ v e1 e2, entryAt twoEntryEditor.m_history twoEntryEditor.m_currentHistoryIndex = some v ∧
      executeUndo true twoEntryEditor = .ok e1 ∧ executeRedo true e1 = .ok e2 ∧
      e1.m_history = twoEntryEditor.m_history ∧
      e2.m_history = twoEntryEditor.m_history ∧
      e2.m_currentHistoryIndex = twoEntryEditor.m_currentHistoryIndex ∧
      e2.m_textEdit = { text := entryText v, cursor := entryCursor v }) ∧
    (∀ t : String, ∃ e3,
      setText true t { twoEntryEditor with
          m_deactivateHistoryEvent := true,
          m_currentHistoryIndex := twoEntryEditor.m_currentHistoryIndex - 1 } = .ok e3 ∧
      e3.m_history = twoEntryEditor.m_history ∧
      e3.m_currentHistoryIndex = twoEntryEditor.m_currentHistoryIndex - 1 ∧
      e3.fileWrites = twoEntryEditor.fileWrites) :=
  ⟨indexInvariant_of_bounds _ (by decide) (by decide), by decide,
    undo_then_redo_restores true true twoEntryEditor
      (indexInvariant_of_bounds _ (by decide) (by decide)) (by decide)⟩

/-- What `loadHistory` does with the persisted index, for every decoded
envelope (the file decompresses to bytes that parse to an object with an array
member `history`): it returns with the persisted log and with the persisted
index as it is (0 when `state.currentIndex` is missing or is no `int`).  The
range test of the index only decides about the widget: an index inside the log
shows the entry stored there, any other index leaves the widget alone.  So the
store satisfies the index invariant exactly when the persisted index already
lies in `[0, length - 1]`, or is -1 with an empty log. -/
theorem load_adopts_persisted_index (saveData : QJsonObject) (e : Editor) :
    ∃ e1, loadHistoryFrom saveData e = .ok e1 ∧
      (∀ (bytes data : QByteArray) (inflate : QByteArray → InflateOutcome)
          (fromJson : QByteArray → Option QJsonValue),
        decompressData inflate bytes = .ok data → data ≠ [] →
        fromJson data = some (QJsonValue.object saveData) →
        QJsonObject.contains saveData "history" = true →
        (QJsonObject.value saveData "history").isArray = true →
        loadHistory (some bytes) inflate fromJson e = .ok e1) ∧
      e1.m_history = persistedHistory saveData ∧
      e1.m_currentHistoryIndex = persistedIndex saveData ∧
      ((0 ≤ persistedIndex saveData ∧
          persistedIndex saveData < ((persistedHistory saveData).length : Int)) →
        ∃ v, entryAt (persistedHistory saveData) (persistedIndex saveData) = some v ∧
          e1.m_textEdit = { text := entryText v, cursor := entryCursor v }) ∧
      (¬ (0 ≤ persistedIndex saveData ∧
          persistedIndex saveData < ((persistedHistory saveData).length : Int)) →
        e1.m_textEdit = e.m_textEdit) ∧
      (IndexInvariant e1 ↔
        ((persistedHistory saveData = [] ∧ persistedIndex saveData = -1) ∨
         (0 ≤ persistedIndex saveData ∧
          persistedIndex saveData < ((persistedHistory saveData).length : Int)))) := by
  obtain ⟨e1, hrun, hh, hi, _, _, _, hshow, hskip⟩ := loadHistoryFrom_fields saveData e
  refine ⟨e1, hrun, ?_, hh, hi, hshow, hskip, ?_⟩
  · intro bytes data inflate fromJson hd hne hj hc ha
    rw [loadHistory_decoded bytes data inflate fromJson saveData e hd hne hj hc ha]
    exact hrun
  rw [← hh, ← hi]
  constructor
  · intro hinv
    by_cases hne : e1.m_history = []
    · exact Or.inl ⟨hne, hinv.1 hne⟩
    · exact Or.inr (hinv.2 hne)
  · rintro (⟨hnil, hm⟩ | ⟨h0, h1⟩)
    · exact ⟨fun _ => hm, fun h => absurd hnil h⟩
    · exact indexInvariant_of_bounds e1 h0 h1

/-- C11 (load and the index) at the failing inputs.  The claim says the store
after `loadHistory` satisfies the index invariant, an index outside
`[0, length - 1]` being clamped.  The code tests the range only to decide
whether to show the text and keeps the index:
* a file with the log `[("a", 1)]` and `state.currentIndex` 5, however it is
  decoded, loads to that log with index 5 and the widget untouched; the store
  does not satisfy the invariant, and the next `record` and the next undo read
  `m_history` outside the array;
* a file with an empty log and no `state` loads to the empty log with index 0,
  not -1;
* a file with an empty log and `state.currentIndex` -5 loads to index -5, and
  the next `record` never leaves the truncation loop. -/
theorem load_keeps_out_of_range_index :
    (loadHistoryFrom (envelope [snapshot "a" 1] 5) (freshEditor 3)
        = .ok loadedIndexFiveEditor ∧
      (∀ (bytes data : QByteArray) (inflate : QByteArray → InflateOutcome)
          (fromJson : QByteArray → Option QJsonValue),
        decompressData inflate bytes = .ok data → data ≠ [] →
        fromJson data = some (QJsonValue.object (envelope [snapshot "a" 1] 5)) →
        loadHistory (some bytes) inflate fromJson (freshEditor 3)
          = .ok loadedIndexFiveEditor) ∧
      loadedIndexFiveEditor.m_history = [snapshot "a" 1] ∧
      loadedIndexFiveEditor.m_currentHistoryIndex = 5 ∧
      loadedIndexFiveEditor.m_textEdit = (freshEditor 3).m_textEdit ∧
      ¬ IndexInvariant loadedIndexFiveEditor ∧
      record true "b" 1 loadedIndexFiveEditor = .error .indexOutOfRange ∧
      executeUndo true loadedIndexFiveEditor = .error .indexOutOfRange) ∧
    (loadHistoryFrom (envelopeWithoutState []) (freshEditor 3) = .ok loadedNoStateEditor ∧
      loadedNoStateEditor.m_history = [] ∧
      loadedNoStateEditor.m_currentHistoryIndex = 0 ∧
      ¬ IndexInvariant loadedNoStateEditor) ∧
    (loadHistoryFrom (envelope [] (-5)) (freshEditor 3) = .ok loadedIndexMinusFiveEditor ∧
      loadedIndexMinusFiveEditor.m_history = [] ∧
      loadedIndexMinusFiveEditor.m_currentHistoryIndex = -5 ∧
      ¬ IndexInvariant loadedIndexMinusFiveEditor ∧
      record true "b" 1 loadedIndexMinusFiveEditor = .error .nonTermination) := by
  refine ⟨⟨rfl, ?_, rfl, rfl, rfl, ?_, rfl, rfl⟩, ⟨rfl, rfl, rfl, ?_⟩,
    ⟨rfl, rfl, rfl, ?_, rfl⟩⟩
  · intro bytes data inflate fromJson hd hne hj
    rw [loadHistory_decoded bytes data inflate fromJson _ (freshEditor 3) hd hne hj rfl rfl]
    rfl
  · intro hinv
    have hb := indexInvariant_bounds _ hinv
    exact absurd hb.2 (by decide)
  · intro hinv
    have hb := indexInvariant_bounds _ hinv
    exact absurd hb.2 (by decide)
  · intro hinv
    have hb := indexInvariant_bounds _ hinv
    exact absurd hb.1 (by decide)

/-- C12 (load failure).  When `loadHistory` runs on the freshly constructed
store and the file is missing, is empty, does not decompress, does not parse
as JSON, parses to no object or parses to an object without an array member
`history`, it returns without a fault and leaves the store as it was: empty
log, index -1, nothing of the input adopted. -/
theorem load_failure_leaves_empty_store (file : Option QByteArray)
    (inflate : QByteArray → InflateOutcome) (fromJson : QByteArray → Option QJsonValue)
    (e : Editor) (hfail : LoadFailure file inflate fromJson)
    (hlog : e.m_history = []) (hidx : e.m_currentHistoryIndex = -1) :
    ∃ e1, loadHistory file inflate fromJson e = .ok e1 ∧
      e1.m_history = [] ∧ e1.m_currentHistoryIndex = -1 ∧ e1 = e :=
  ⟨e, loadHistory_failure file inflate fromJson e hfail, hlog, hidx, rfl⟩

/-- C12 at a concrete input: three bytes on which the zlib session fails. -/
theorem load_failure_leaves_empty_store_witness :
    LoadFailure (some [1, 2, 3]) (fun _ => InflateOutcome.failed) (fun _ => none) ∧
    (freshEditor 3).m_history = [] ∧ (freshEditor 3).m_currentHistoryIndex = -1 ∧
    ∃ e1, loadHistory (some [1, 2, 3]) (fun _ => InflateOutcome.failed) (fun _ => none)
        (freshEditor 3) = .ok e1 ∧
      e1.m_history = [] ∧ e1.m_currentHistoryIndex = -1 ∧ e1 = freshEditor 3 :=
  ⟨Or.inr (Or.inr (Or.inl ⟨[1, 2, 3], rfl, rfl⟩)), rfl, rfl,
    load_failure_leaves_empty_store (some [1, 2, 3]) (fun _ => InflateOutcome.failed)
      (fun _ => none) (freshEditor 3)
      (Or.inr (Or.inr (Or.inl ⟨[1, 2, 3], rfl, rfl⟩))) rfl rfl⟩

/-- C14 (capacity 0) at the failing input: from the empty store the calls
`record("a",1)`, `record("b",1)` leave, with capacity 0, the log `[("a",1)]`
with index -1 (the second call does nothing), and with capacity 1 the log
`[("b",1)]` with index 0; already after the first call the indices differ. -/
theorem capacity_zero_differs_from_one :
    (∃ x, run (freshEditor 0) (recordOps [(("a", 1), true), (("b", 1), true)]) = .ok x ∧
      x.m_history = [snapshot "a" 1] ∧ x.m_currentHistoryIndex = -1) ∧
    (∃ y, run (freshEditor 1) (recordOps [(("a", 1), true), (("b", 1), true)]) = .ok y ∧
      y.m_history = [snapshot "b" 1] ∧ y.m_currentHistoryIndex = 0) ∧
    (∃ x, run (freshEditor 0) (recordOps [(("a", 1), true)]) = .ok x ∧
      x.m_history = [snapshot "a" 1] ∧ x.m_currentHistoryIndex = -1) ∧
    (∃ y, run (freshEditor 1) (recordOps [(("a", 1), true)]) = .ok y ∧
      y.m_history = [snapshot "a" 1] ∧ y.m_currentHistoryIndex = 0) :=
  ⟨⟨_, rfl, rfl, rfl⟩, ⟨_, rfl, rfl, rfl⟩, ⟨_, rfl, rfl, rfl⟩, ⟨_, rfl, rfl, rfl⟩⟩

/-- C15 (persisted index matches memory).  With the history file opening for
writing: an accepted `record` in a state that satisfies the index invariant
writes one document, and any document a `record` writes, in any state, holds
the whole log it leaves as `history` and the index it leaves as
`state.currentIndex`; an undo or redo that moves the index writes one such
document and keeps the log as it was. -/
theorem persisted_index_matches_memory (e : Editor) :
    (∀ t c, IndexInvariant e → e.m_deactivateHistoryEvent = false → isInt c →
      Accepted e t c → ∃ e1, record true t c e = .ok e1 ∧ PersistedMatches e e1) ∧
    (∀ t c e1, record true t c e = .ok e1 →
      e1.fileWrites = e.fileWrites ∨ PersistedMatches e e1) ∧
    (∀ e1, 0 < e.m_currentHistoryIndex → executeUndo true e = .ok e1 →
      PersistedMatches e e1 ∧ e1.m_history = e.m_history) ∧
    (∀ e1, e.m_currentHistoryIndex < (e.m_history.length : Int) - 1 →
      executeRedo true e = .ok e1 →
      PersistedMatches e e1 ∧ e1.m_history = e.m_history) := by
  refine ⟨?_, ?_, ?_, ?_⟩
  · intro t c hinv hf hc hacc
    obtain ⟨e1, hrun, hyes, _⟩ := record_outcome true t c e hinv hf hc
    refine ⟨e1, hrun, ?_⟩
    have hw := (hyes hacc).2.2
    rcases saveHistory_persists { e with m_textEdit := { text := t, cursor := c } } e1 hrun
      with hsame | hm
    · exfalso
      have hsame1 : e1.fileWrites = e.fileWrites := hsame
      rw [hsame1] at hw
      simp only [if_true] at hw
      have := congrArg List.length hw
      simp at this
    · exact hm
  · intro t c e1 hrun
    exact saveHistory_persists { e with m_textEdit := { text := t, cursor := c } } e1 hrun
  · intro e1 hpos hrun
    unfold executeUndo at hrun
    rw [if_pos hpos] at hrun
    obtain ⟨h1, h2, _⟩ := restoreState_persists _ e e1 hrun
    exact ⟨h1, h2⟩
  · intro e1 hlt hrun
    unfold executeRedo at hrun
    rw [if_pos hlt] at hrun
    obtain ⟨h1, h2, _⟩ := restoreState_persists _ e e1 hrun
    exact ⟨h1, h2⟩

/-- C15 at concrete inputs: recording `("ab", 2)` into the store that holds
`("a", 1)`, and undoing in the two-entry store. -/
theorem persisted_index_matches_memory_witness :
    IndexInvariant oneEntryEditor ∧ oneEntryEditor.m_deactivateHistoryEvent = false ∧
    isInt 2 ∧ Accepted oneEntryEditor "ab" 2 ∧
    (∃ e1, record true "ab" 2 oneEntryEditor = .ok e1 ∧
      PersistedMatches oneEntryEditor e1) ∧
    0 < twoEntryEditor.m_currentHistoryIndex ∧
    (∃ e1, executeUndo true twoEntryEditor = .ok e1 ∧
      PersistedMatches twoEntryEditor e1 ∧ e1.m_history = twoEntryEditor.m_history) := by
  have hinv : IndexInvariant oneEntryEditor :=
    indexInvariant_of_bounds _ (by decide) (by decide)
  have hacc : Accepted oneEntryEditor "ab" 2 :=
    Or.inr ⟨snapshot "a" 1, rfl, Or.inl (by decide)⟩
  refine ⟨hinv, rfl, by decide, hacc, ?_, by decide, ?_⟩
  · exact (persisted_index_matches_memory oneEntryEditor).1 "ab" 2 hinv rfl (by decide) hacc
  · obtain ⟨e1, hrun, _⟩ := executeUndo_preserves true twoEntryEditor
      (indexInvariant_of_bounds _ (by decide) (by decide)) rfl
    exact ⟨e1, hrun,
      (persisted_index_matches_memory twoEntryEditor).2.2.1 e1 (by decide) hrun⟩

/-- C17 (inert record).  In every state whose log is non-empty and whose index
is negative, every `record` returns and leaves log, index and history file as
they are, undo returns the state unchanged, and so does every finite sequence
of record and undo operations: the store never leaves that log and index. -/
theorem record_inert_on_negative_index (e : Editor)
    (hne : e.m_history ≠ []) (hneg : e.m_currentHistoryIndex < 0) :
    (∀ o t c, ∃ e1, record o t c e = .ok e1 ∧ e1.m_history = e.m_history ∧
      e1.m_currentHistoryIndex = e.m_currentHistoryIndex ∧
      e1.fileWrites = e.fileWrites) ∧
    (∀ o, executeUndo o e = .ok e) ∧
    (∀ ops : List (Op × Bool), (∀ p ∈ ops, p.1.isRecordOrUndo = true) →
      ∃ e1, run e ops = .ok e1 ∧ e1.m_history = e.m_history ∧
        e1.m_currentHistoryIndex = e.m_currentHistoryIndex ∧
        e1.fileWrites = e.fileWrites) := by
  refine ⟨?_, ?_, ?_⟩
  · intro o t c
    exact ⟨_, record_inert o t c e hne hneg, rfl, rfl, rfl⟩
  · intro o
    exact executeUndo_at_start o e (by omega)
  · intro ops hops
    exact run_inert ops e hops hne hneg

/-- C17 at the two ways into such a state: one `record` with capacity 0, and
a loaded file with index -3. -/
theorem record_inert_on_negative_index_witness :
    run (freshEditor 0) [(Op.record "a" 1, true)] = .ok inertEditor ∧
    inertEditor.m_history = [snapshot "a" 1] ∧ inertEditor.m_currentHistoryIndex = -1 ∧
    (∃ e1, run inertEditor
        [(Op.record "b" 1, true), (Op.undo, true), (Op.record "c" 2, true)] = .ok e1 ∧
      e1.m_history = inertEditor.m_history ∧
      e1.m_currentHistoryIndex = inertEditor.m_currentHistoryIndex ∧
      e1.fileWrites = inertEditor.fileWrites) ∧
    negativeIndexEditor.m_history ≠ [] ∧ negativeIndexEditor.m_currentHistoryIndex < 0 ∧
    (∀ o t c, ∃ e1, record o t c negativeIndexEditor = .ok e1 ∧
      e1.m_history = negativeIndexEditor.m_history ∧
      e1.m_currentHistoryIndex = negativeIndexEditor.m_currentHistoryIndex ∧
      e1.fileWrites = negativeIndexEditor.fileWrites) := by
  have h1 : inertEditor.m_history ≠ [] := by
    intro h
    have : inertEditor.m_history.length = 1 := rfl
    rw [h] at this
    cases this
  have h2 : negativeIndexEditor.m_history ≠ [] := by
    intro h
    have : negativeIndexEditor.m_history.length = 1 := rfl
    rw [h] at this
    cases this
  refine ⟨rfl, rfl, rfl, ?_, h2, by decide, ?_⟩
  · exact (record_inert_on_negative_index inertEditor h1 (by decide)).2.2 _ (by decide)
  · exact (record_inert_on_negative_index negativeIndexEditor h2 (by decide)).1

/-- C18 (over-capacity log).  With capacity `N >= 1`, in a state that
satisfies the index invariant with the index at the last entry and a log
longer than `N`, an accepted `record` drops entry 0 and appends the snapshot,
so the length is unchanged and still above `N`.  In every state that satisfies
the index invariant an accepted `record` leaves the entries up to the index
without at most one entry at the front, followed by the snapshot; and in any
state whatever a `record` that returns leaves the log and index alone or
leaves a log of that form. -/
theorem over_capacity_log_not_trimmed :
    (∀ (o : Bool) (t : String) (c : Int) (N : Int) (e : Editor),
      1 ≤ N → e.m_maxHistorySize = N → IndexInvariant e →
      e.m_deactivateHistoryEvent = false →
      e.m_currentHistoryIndex = (e.m_history.length : Int) - 1 →
      N < (e.m_history.length : Int) → Accepted e t c →
      ∃ e1, record o t c e = .ok e1 ∧
        e1.m_history = e.m_history.tail ++ [snapshot t c] ∧
        e1.m_history.length = e.m_history.length ∧
        N < (e1.m_history.length : Int) ∧
        e1.m_currentHistoryIndex = e.m_currentHistoryIndex) ∧
    (∀ (o : Bool) (t : String) (c : Int) (e : Editor),
      IndexInvariant e → e.m_deactivateHistoryEvent = false → Accepted e t c →
      ∃ e1 k, record o t c e = .ok e1 ∧ k ≤ 1 ∧
        e1.m_history =
          (e.m_history.take (e.m_currentHistoryIndex + 1).toNat).drop k
            ++ [snapshot t c]) ∧
    (∀ (o : Bool) (t : String) (c : Int) (e e1 : Editor), record o t c e = .ok e1 →
      (e1.m_history = e.m_history ∧
        e1.m_currentHistoryIndex = e.m_currentHistoryIndex) ∨
      ∃ k, k ≤ 1 ∧
        e1.m_history =
          (e.m_history.take (e.m_currentHistoryIndex + 1).toNat).drop k
            ++ [snapshot t c]) := by
  refine ⟨?_, ?_, ?_⟩
  · intro o t c N e hN hmax hinv hf hlast hover hacc
    obtain ⟨hlo, hhi⟩ := indexInvariant_bounds e hinv
    have hb := (shouldSave_true_iff e t c hinv).1.mpr hacc
    obtain ⟨e1, hrun, hh, hi, _⟩ :=
      saveHistory_evict o { e with m_textEdit := { text := t, cursor := c } } hf hb hlo hhi
        (by simp only; omega)
    have htake : e.m_history.take (e.m_currentHistoryIndex + 1).toNat = e.m_history := by
      apply List.take_of_length_le
      omega
    simp only [htake] at hh
    have hl : e1.m_history.length = e.m_history.length := by
      rw [hh, List.length_append, List.length_singleton, List.length_tail]
      omega
    refine ⟨e1, hrun, hh, hl, ?_, hi⟩
    rw [hl]
    exact hover
  · intro o t c e hinv hf hacc
    obtain ⟨hlo, hhi⟩ := indexInvariant_bounds e hinv
    have hb := (shouldSave_true_iff e t c hinv).1.mpr hacc
    by_cases hm : e.m_currentHistoryIndex + 1 < e.m_maxHistorySize
    · obtain ⟨e1, hrun, hh, _⟩ :=
        saveHistory_append o { e with m_textEdit := { text := t, cursor := c } }
          hf hb hlo hhi hm
      exact ⟨e1, 0, hrun, by omega, by rw [hh]; rfl⟩
    · obtain ⟨e1, hrun, hh, _⟩ :=
        saveHistory_evict o { e with m_textEdit := { text := t, cursor := c } }
          hf hb hlo hhi (by simp only; omega)
      refine ⟨e1, 1, hrun, by omega, ?_⟩
      rw [hh]
      simp
  · intro o t c e e1 hrun
    exact saveHistory_drops_at_most_one o
      { e with m_textEdit := { text := t, cursor := c } } e1 hrun

/-- C18 at a concrete input: capacity 1 with a two-entry log and the
candidate `("abc", 3)`. -/
theorem over_capacity_log_not_trimmed_witness :
    (1 : Int) ≤ 1 ∧ overfullEditor.m_maxHistorySize = 1 ∧ IndexInvariant overfullEditor ∧
    overfullEditor.m_deactivateHistoryEvent = false ∧
    overfullEditor.m_currentHistoryIndex = (overfullEditor.m_history.length : Int) - 1 ∧
    (1 : Int) < (overfullEditor.m_history.length : Int) ∧
    Accepted overfullEditor "abc" 3 ∧
    ∃ e1, record true "abc" 3 overfullEditor = .ok e1 ∧
      e1.m_history = overfullEditor.m_history.tail ++ [snapshot "abc" 3] ∧
      e1.m_history.length = overfullEditor.m_history.length ∧
      (1 : Int) < (e1.m_history.length : Int) ∧
      e1.m_currentHistoryIndex = overfullEditor.m_currentHistoryIndex :=
  ⟨by decide, rfl, indexInvariant_of_bounds _ (by decide) (by decide), rfl, by decide,
    by decide, Or.inr ⟨snapshot "ab" 2, rfl, Or.inl (by decide)⟩,
    over_capacity_log_not_trimmed.1 true "abc" 3 1 overfullEditor (by decide) rfl
      (indexInvariant_of_bounds _ (by decide) (by decide)) rfl (by decide) (by decide)
      (Or.inr ⟨snapshot "ab" 2, rfl, Or.inl (by decide)⟩)⟩

end QuickNote
